import Mathlib

/-!
Verification of the edit/filesystem engine of the `code-editor` repository.

File contents are modelled as `List Char` (decoded text).  Machine details
that the claims do not touch (UTF-8 byte boundaries, OS timeouts, the
metadata cache) are noted where they are abstracted.
-/

namespace CodeEditor

abbrev Text := List Char

/-! ## Path sandbox (`src/tools/filesystem.py`)

A resolved absolute path is a drive string (empty on POSIX, e.g. `"C:"` on
Windows) plus a list of components.  `Path.resolve()`'s symlink resolution is
not modelled; its lexical `..`/`.` elimination is modelled by `resolveParts`.
-/

structure AbsPath where
  drive : String
  parts : List String
deriving DecidableEq, Repr

/-- A requested path before resolution: may be relative and may contain
`".."` / `"."` components (`Path(requested_path).expanduser()`). -/
structure RawPath where
  isAbsolute : Bool
  drive : String
  parts : List String
deriving DecidableEq, Repr

/-- Lexical canonicalization performed by `Path.resolve()`: `"."` and empty
components vanish, `".."` pops the previous component (and is a no-op at the
root, which is `resolve`'s behaviour). -/
def resolveParts (ps : List String) : List String :=
  ps.foldl (fun acc s =>
    if s = "." ∨ s = "" then acc
    else if s = ".." then acc.dropLast
    else acc ++ [s]) []

/-- `validate_path` lines 85-88: absolute requests are used as-is, relative
ones are joined to the active root, then the result is canonicalized. -/
def resolveRaw (base : AbsPath) (r : RawPath) : AbsPath :=
  if r.isAbsolute then ⟨r.drive, resolveParts r.parts⟩
  else ⟨base.drive, resolveParts (base.parts ++ r.parts)⟩

/-- `_is_relative_to` (filesystem.py lines 56-61): `path.relative_to(base)`
succeeds iff `base` is a component-prefix of `path` on the same drive
(pathlib compares drives case-insensitively). -/
def isRelativeTo (p base : AbsPath) : Bool :=
  p.drive.toLower = base.drive.toLower && base.parts.isPrefixOf p.parts

/-- `_is_drive_root` (line 64-65): `p == Path(p.anchor)`. -/
def isDriveRoot (p : AbsPath) : Bool := p.parts.isEmpty

/-- `_is_unrestricted` (lines 68-69): no roots, or some root is `"/"`
(the POSIX filesystem root: empty drive and no components). -/
def isUnrestricted (roots : List AbsPath) : Bool :=
  roots.isEmpty || roots.any (fun p => p.drive = "" && p.parts.isEmpty)

/-- `_is_path_allowed` (lines 72-80). -/
def isPathAllowed (path : AbsPath) (allowedRoots : List AbsPath) : Bool :=
  isUnrestricted allowedRoots ||
  allowedRoots.any (fun allowed =>
    (isDriveRoot allowed && allowed.drive ≠ "" &&
      path.drive.toLower = allowed.drive.toLower) ||
    isRelativeTo path allowed || path = allowed)

/-- `validate_path` (lines 83-96). -/
def validatePath (allowedRoots : List AbsPath) (base : AbsPath)
    (requested : RawPath) : Except String AbsPath :=
  let absolute := resolveRaw base requested
  if isPathAllowed absolute allowedRoots then .ok absolute
  else .error "Path not allowed: access denied"

/-- Helper: a canonical path has no `".."`, `"."` or empty components. -/
def cleanParts (ps : List String) : Prop :=
  ".." ∉ ps ∧ "." ∉ ps ∧ "" ∉ ps

theorem resolveParts_clean (ps : List String) : cleanParts (resolveParts ps) := by
  suffices h : ∀ acc : List String, cleanParts acc →
      cleanParts (ps.foldl (fun acc s =>
        if s = "." ∨ s = "" then acc
        else if s = ".." then acc.dropLast
        else acc ++ [s]) acc) by
    exact h [] ⟨List.not_mem_nil _, List.not_mem_nil _, List.not_mem_nil _⟩
  induction ps with
  | nil => intro acc hacc; exact hacc
  | cons s rest ih =>
    intro acc hacc
    simp only [List.foldl_cons]
    by_cases h1 : s = "." ∨ s = ""
    · simpa [h1] using ih acc hacc
    · by_cases h2 : s = ".."
      · have hdrop : cleanParts acc.dropLast := by
          obtain ⟨a1, a2, a3⟩ := hacc
          exact ⟨fun hm => a1 (List.dropLast_subset _ hm),
                 fun hm => a2 (List.dropLast_subset _ hm),
                 fun hm => a3 (List.dropLast_subset _ hm)⟩
        simpa [h1, h2] using ih _ hdrop
      · have happ : cleanParts (acc ++ [s]) := by
          obtain ⟨a1, a2, a3⟩ := hacc
          push_neg at h1
          refine ⟨?_, ?_, ?_⟩ <;>
            · intro hm
              rcases List.mem_append.mp hm with hm | hm
              · first
                  | exact a1 hm
                  | exact a2 hm
                  | exact a3 hm
              · simp only [List.mem_singleton] at hm
                first
                  | exact h2 hm.symm
                  | exact h1.1 hm.symm
                  | exact h1.2 hm.symm
        simpa [h1, h2] using ih _ happ

theorem resolveRaw_clean (base : AbsPath) (r : RawPath) :
    cleanParts (resolveRaw base r).parts := by
  unfold resolveRaw
  by_cases h : r.isAbsolute <;> simp [h, resolveParts_clean]

/-- Sitting under a drive root is exactly sharing its drive letter. -/
theorem isRelativeTo_of_drive_clause (p allowed : AbsPath)
    (hroot : isDriveRoot allowed) (hdrive : p.drive.toLower = allowed.drive.toLower) :
    isRelativeTo p allowed = true := by
  simp only [isDriveRoot, List.isEmpty_iff] at hroot
  simp [isRelativeTo, hroot, hdrive, List.isPrefixOf]

theorem isPathAllowed_iff (path : AbsPath) (roots : List AbsPath) :
    isPathAllowed path roots = true ↔
      (isUnrestricted roots = true ∨
        ∃ r ∈ roots, path = r ∨ isRelativeTo path r = true) := by
  unfold isPathAllowed
  simp only [Bool.or_eq_true, List.any_eq_true]
  constructor
  · rintro (h | ⟨r, hr, hc⟩)
    · exact Or.inl h
    · refine Or.inr ⟨r, hr, ?_⟩
      simp only [Bool.or_eq_true, Bool.and_eq_true, decide_eq_true_eq] at hc
      rcases hc with (⟨⟨hdr, _⟩, hdrive⟩ | hrel) | heq
      · exact Or.inr (isRelativeTo_of_drive_clause path r hdr hdrive)
      · exact Or.inr hrel
      · exact Or.inl heq
  · rintro (h | ⟨r, hr, heq | hrel⟩)
    · exact Or.inl h
    · exact Or.inr ⟨r, hr, by simp [heq]⟩
    · exact Or.inr ⟨r, hr, by simp [hrel]⟩

/-- **C1.** For every requested path whose resolved absolute form is not equal
to, or a descendant of, any allowed root (and the root set is not
unrestricted), `validate_path` fails with the access-denied error; for every
requested path whose resolved form lies under an allowed root, `validate_path`
succeeds and returns the canonical (`..`-free) absolute resolved path. -/
theorem validate_path_sandbox (roots : List AbsPath) (base : AbsPath)
    (requested : RawPath) :
    (isUnrestricted roots = false →
      (∀ r ∈ roots, resolveRaw base requested ≠ r ∧
        isRelativeTo (resolveRaw base requested) r = false) →
      validatePath roots base requested =
        .error "Path not allowed: access denied") ∧
    ((∃ r ∈ roots, resolveRaw base requested = r ∨
        isRelativeTo (resolveRaw base requested) r = true) →
      validatePath roots base requested = .ok (resolveRaw base requested) ∧
        cleanParts (resolveRaw base requested).parts) := by
  constructor
  · intro hunres hnone
    unfold validatePath
    have hnotallowed : isPathAllowed (resolveRaw base requested) roots = false := by
      rw [Bool.eq_false_iff]
      intro hall
      rcases (isPathAllowed_iff _ _).mp hall with h | ⟨r, hr, heq | hrel⟩
      · rw [hunres] at h; exact Bool.false_ne_true h
      · exact (hnone r hr).1 heq
      · rw [(hnone r hr).2] at hrel; exact Bool.false_ne_true hrel
    simp [hnotallowed]
  · intro hunder
    have hallowed : isPathAllowed (resolveRaw base requested) roots = true :=
      (isPathAllowed_iff _ _).mpr (Or.inr hunder)
    refine ⟨?_, resolveRaw_clean base requested⟩
    unfold validatePath
    simp [hallowed]

/-- Witness for C1 at a concrete input: with allowed root `/home/user`, the
relative request `docs/..` validates back to `/home/user` itself. -/
theorem validate_path_sandbox_witness :
    validatePath [⟨"", ["home", "user"]⟩] ⟨"", ["home", "user"]⟩
        ⟨false, "", ["docs", ".."]⟩ =
      .ok ⟨"", ["home", "user"]⟩ :=
  ((validate_path_sandbox [⟨"", ["home", "user"]⟩] ⟨"", ["home", "user"]⟩
      ⟨false, "", ["docs", ".."]⟩).2
    ⟨⟨"", ["home", "user"]⟩, by decide⟩).1

/-! ## Text utilities shared by the read/write and edit paths -/

/-- Universal-newline translation performed by Python text-mode reading
(`open(path, "r")` with the default `newline=None`): `"\r\n"` and lone `"\r"`
both become `"\n"`. -/
def univNewlines : Text → Text
  | [] => []
  | [c] => if c = '\r' then ['\n'] else [c]
  | c :: d :: rest =>
    if c = '\r' then
      if d = '\n' then '\n' :: univNewlines rest
      else '\n' :: univNewlines (d :: rest)
    else c :: univNewlines (d :: rest)

theorem univNewlines_cons_of_ne (c : Char) (rest : Text) (hc : c ≠ '\r') :
    univNewlines (c :: rest) = c :: univNewlines rest := by
  cases rest with
  | nil => simp [univNewlines, hc]
  | cons d r => simp [univNewlines, hc]

theorem univNewlines_of_no_cr (t : Text) (h : '\r' ∉ t) : univNewlines t = t := by
  induction t with
  | nil => rfl
  | cons c rest ih =>
    simp only [List.mem_cons, not_or] at h
    rw [univNewlines_cons_of_ne c rest (fun hh => h.1 hh.symm), ih h.2]

/-- `splitlines(keepends=True)` restricted to `"\n"` boundaries (the inputs it
is applied to have already been universal-newline translated, so no `"\r"`
remains; other exotic Python line boundaries are not modelled). -/
def splitKeep : Text → List Text
  | [] => []
  | c :: rest =>
    if c = '\n' then ['\n'] :: splitKeep rest
    else
      match splitKeep rest with
      | [] => [[c]]
      | l :: ls => (c :: l) :: ls

theorem join_splitKeep : ∀ t : Text, (splitKeep t).flatten = t
  | [] => rfl
  | c :: rest => by
    have ih := join_splitKeep rest
    unfold splitKeep
    by_cases hc : c = '\n'
    · simp [hc, ih]
    · simp only [hc, if_false]
      match hrec : splitKeep rest with
      | [] =>
        rw [hrec] at ih
        simp only [List.flatten] at ih
        simp [← ih]
      | l :: ls =>
        rw [hrec] at ih
        simpa [List.flatten_cons] using congrArg (c :: ·) ih

theorem length_splitKeep : ∀ t : Text, (splitKeep t).length ≤ t.length
  | [] => le_refl 0
  | c :: rest => by
    have ih := length_splitKeep rest
    unfold splitKeep
    by_cases hc : c = '\n'
    · simpa [hc] using Nat.succ_le_succ ih
    · simp only [hc, if_false]
      match hrec : splitKeep rest with
      | [] => simp
      | l :: ls =>
        rw [hrec] at ih
        simpa using Nat.le_trans ih (Nat.le_succ _)

/-- Python's non-overlapping `str.count` (scanning left to right).
Mirrors `content.count(normalized_search)`.  The scan consumes at least one
character per step, so `s.length` steps of fuel make the recursion
structural (and hence kernel-computable). -/
def countOccAux (sub : Text) : Nat → Text → Nat
  | 0, _ => 0
  | fuel + 1, s =>
    match s with
    | [] => 0
    | c :: cs =>
      if sub.isPrefixOf (c :: cs) then
        1 + countOccAux sub fuel (List.drop sub.length (c :: cs))
      else countOccAux sub fuel cs

def countOcc (s sub : Text) : Nat :=
  if sub = [] then s.length + 1 else countOccAux sub s.length s

/-- Python's `str.find` / first index of `sub` in `s` at or after the scan
start; mirrors `content.index(normalized_search, search_start)` (`index`
raises when absent, modelled by `Option`). -/
def firstIdxAux (sub : Text) : Text → Nat → Option Nat
  | [], i => if sub = [] then some i else none
  | c :: cs, i =>
    if sub.isPrefixOf (c :: cs) then some i else firstIdxAux sub cs (i + 1)

def firstIdx (s sub : Text) : Option Nat := firstIdxAux sub s 0

/-- Line-ending style of a file, `detect_line_ending` (edit.py lines 22-27). -/
inductive LineEnding where
  | lf | crlf | cr
deriving DecidableEq, Repr

/-- `"\r\n" in content`. -/
def hasCrlf : Text → Bool
  | '\r' :: '\n' :: _ => true
  | _ :: rest => hasCrlf rest
  | [] => false

def detectLineEnding (content : Text) : LineEnding :=
  if hasCrlf content then .crlf
  else if content.any (· = '\r') then .cr
  else .lf

def expandLF : Text → Text
  | [] => []
  | '\n' :: rest => '\r' :: '\n' :: expandLF rest
  | c :: rest => c :: expandLF rest

def lfToCR : Text → Text
  | [] => []
  | '\n' :: rest => '\r' :: lfToCR rest
  | c :: rest => c :: lfToCR rest

/-- `normalize_line_endings` (edit.py lines 30-39): normalize to LF first,
then convert to the target style. -/
def normalizeLineEndings (t : Text) (target : LineEnding) : Text :=
  let normalized := univNewlines t
  match target with
  | .lf => normalized
  | .crlf => expandLF normalized
  | .cr => lfToCR normalized

/-! ## The filesystem state and `write_file` / `read_file_internal`
(`src/tools/filesystem.py` lines 299-342)

A file is its decoded text plus a modification time (seconds, as an exact
rational standing in for the float).  `validate_path` inside these functions
is modelled as the identity on already-absolute path strings (the sandbox
decision itself is modelled above for C1).  UTF-8 encode/decode of valid text
is lossless and is modelled as the identity; `st_size` is modelled as the
character count. -/

structure FileData where
  content : Text
  mtime : ℚ
deriving DecidableEq

def FSt := String → Option FileData

def FSt.contentAt (fs : FSt) (p : String) : Option Text :=
  (fs p).map FileData.content

def FSt.update (fs : FSt) (p : String) (d : FileData) : FSt :=
  fun q => if q = p then some d else fs q

/-- Primitive disk actions performed by `write_file`, recorded so that the
presence/absence of a temp-file-and-rename sequence is observable. -/
inductive FsEvent where
  | mkdirParents (path : String)
  | openTruncate (path : String)
  | openAppend (path : String)
  | writeData (path : String) (data : Text)
  | closeFile (path : String)
  | createTemp (path : String)
  | renameInto (src dst : String)
deriving DecidableEq, Repr

def FsEvent.isRename : FsEvent → Bool
  | .renameInto _ _ => true
  | _ => false

inductive WriteMode where
  | rewrite | append
deriving DecidableEq, Repr

inductive FsErr where
  | conflict
  | notFound
  | emptySearch
  | tooLarge
  | matchCountMismatch (found expected : Nat)
  | wsCountMismatch (found expected : Nat)
  | overlyGreedy (matchedLines expectedLines : Nat)
  | subnMismatch (subbed expected : Nat)
  | closeMatchNotExact
  | noMatch
  | internalIndexError
deriving DecidableEq, Repr

/-- `write_file` (filesystem.py lines 319-342).  The mtime conflict check only
runs when an expected mtime is supplied *and the target exists*; the write
itself opens the target directly (truncating in rewrite mode) and writes the
content — there is no temporary file and no rename.  `now` is the mtime the
filesystem assigns to the written file. -/
def writeFile (fs : FSt) (path : String) (content : Text) (mode : WriteMode)
    (expectedMtime : Option ℚ) (now : ℚ) :
    Except FsErr (FSt × List FsEvent) :=
  match expectedMtime, fs path with
  | some expected, some data =>
    if |data.mtime - expected| > 1 / 100 then .error .conflict
    else writeFileBody fs path content mode now
  | _, _ => writeFileBody fs path content mode now
where
  writeFileBody (fs : FSt) (path : String) (content : Text) (mode : WriteMode)
      (now : ℚ) : Except FsErr (FSt × List FsEvent) :=
    match mode with
    | .append =>
      let old := ((fs path).map FileData.content).getD []
      .ok (fs.update path ⟨old ++ content, now⟩,
        [.mkdirParents path, .openAppend path, .writeData path content,
         .closeFile path])
    | .rewrite =>
      .ok (fs.update path ⟨content, now⟩,
        [.mkdirParents path, .openTruncate path, .writeData path content,
         .closeFile path])

/-- `read_file_internal` (filesystem.py lines 299-316): a text-mode read
(hence universal-newline translation), returning the whole content when
`offset == 0 and length >= 1 << 53`, and otherwise
`splitlines(keepends=True)[offset : offset+length]` joined back. -/
def readFileInternal (fs : FSt) (path : String) (offset length : Nat) :
    Except FsErr Text :=
  match fs path with
  | none => .error .notFound
  | some data =>
    let content := univNewlines data.content
    if offset = 0 ∧ length ≥ 2 ^ 53 then .ok content
    else .ok (((splitKeep content).drop offset).take length).flatten

def eventsOf (r : Except FsErr (FSt × List FsEvent)) : List FsEvent :=
  match r with
  | .ok (_, ev) => ev
  | .error _ => []

def emptyFS : FSt := fun _ => none

def fsAfter (fallback : FSt) : Except FsErr (FSt × List FsEvent) → FSt
  | .ok (f, _) => f
  | .error _ => fallback

/-- **C2.** The claim says every write/append goes through a
temp-file-and-rename sequence.  The code does not: `write_file` opens the
target path directly (`open(valid_path, "w")`, truncating the original) and
writes into it, so the trace of a rewrite contains no rename at all and the
target is truncated before the new content lands. -/
theorem write_file_trace_has_no_rename :
    eventsOf (writeFile emptyFS "f.txt" "hello".toList .rewrite none 0) =
      [.mkdirParents "f.txt", .openTruncate "f.txt",
       .writeData "f.txt" "hello".toList, .closeFile "f.txt"] ∧
    (eventsOf (writeFile emptyFS "f.txt" "hello".toList .rewrite none 0)).all
      (fun e => !e.isRename) = true ∧
    eventsOf (writeFile emptyFS "f.txt" " world".toList .append none 0) =
      [.mkdirParents "f.txt", .openAppend "f.txt",
       .writeData "f.txt" " world".toList, .closeFile "f.txt"] :=
  ⟨rfl, rfl, rfl⟩

/-- **C10.** When the target path does not exist, `write_file` skips the
optimistic-lock mtime comparison entirely: with any `expected_mtime`, no
conflict is raised, the write proceeds and the file is created with the
requested content. -/
theorem write_file_missing_target_skips_mtime_check (fs : FSt) (path : String)
    (c : Text) (mode : WriteMode) (expected now : ℚ) (h : fs path = none) :
    ∃ ev fs', writeFile fs path c mode (some expected) now = .ok (fs', ev) ∧
      fs'.contentAt path = some c := by
  have hstep : writeFile fs path c mode (some expected) now =
      writeFile.writeFileBody fs path c mode now := by
    unfold writeFile
    rw [h]
  cases mode with
  | rewrite =>
    refine ⟨_, _, by rw [hstep]; rfl, ?_⟩
    simp [FSt.contentAt, FSt.update]
  | append =>
    refine ⟨_, _, by rw [hstep]; rfl, ?_⟩
    simp [FSt.contentAt, FSt.update, h]

/-- Witness for C10: writing to a non-existent path with `expected_mtime = 42`
succeeds and creates the file. -/
theorem write_file_missing_target_skips_mtime_check_witness :
    ∃ ev fs', writeFile emptyFS "new.txt" "data".toList .rewrite (some 42) 43 =
        .ok (fs', ev) ∧ fs'.contentAt "new.txt" = some "data".toList :=
  write_file_missing_target_skips_mtime_check emptyFS "new.txt" "data".toList
    .rewrite 42 43 rfl

/-- **C7 (counterexample).** The write/read round trip is not byte-for-byte:
`read_file_internal` opens the file in text mode, so the carriage returns that
`write_file` faithfully wrote come back translated to `"\n"`. -/
theorem write_read_roundtrip_cr_counterexample :
    readFileInternal
        (fsAfter emptyFS (writeFile emptyFS "f" "a\r\nb".toList .rewrite none 0))
        "f" 0 (2 ^ 53) = .ok "a\nb".toList ∧
      "a\nb".toList ≠ "a\r\nb".toList := by
  constructor
  · rfl
  · decide

/-- **C7 (amended).** For every content without carriage returns, writing it
in rewrite mode and reading the whole file back returns exactly the same
text; in general the read returns the universal-newline translation of what
was written. -/
theorem write_read_roundtrip_no_cr (fs : FSt) (path : String) (c : Text)
    (now : ℚ) (h : '\r' ∉ c) :
    readFileInternal (fsAfter fs (writeFile fs path c .rewrite none now))
      path 0 (2 ^ 53) = .ok c := by
  have hstep : writeFile fs path c .rewrite none now =
      .ok (fs.update path ⟨c, now⟩,
        [.mkdirParents path, .openTruncate path, .writeData path c,
         .closeFile path]) := by
    unfold writeFile
    cases hfs : fs path <;> rfl
  rw [hstep]
  show readFileInternal (fs.update path ⟨c, now⟩) path 0 (2 ^ 53) = .ok c
  unfold readFileInternal FSt.update
  simp [univNewlines_of_no_cr c h]

/-- Witness for C7 (amended) at concrete content `"hello"`. -/
theorem write_read_roundtrip_no_cr_witness :
    readFileInternal
        (fsAfter emptyFS (writeFile emptyFS "f" "hello".toList .rewrite none 0))
        "f" 0 (2 ^ 53) = .ok "hello".toList :=
  write_read_roundtrip_no_cr emptyFS "f" "hello".toList 0 (by decide)

/-! ## Edit engine (`src/tools/edit.py`) -/

def countNl (t : Text) : Nat := t.count '\n'

/-- `text.rfind("\n", 0, index)`: greatest `j < i` with `s[j] = '\n'`
(`none` standing for Python's `-1`). -/
def rfindNl : Text → Nat → Option Nat
  | _, 0 => none
  | [], _ + 1 => none
  | c :: cs, i + 1 =>
    match rfindNl cs i with
    | some j => some (j + 1)
    | none => if c = '\n' then some 0 else none

structure EditLocation where
  start_line : Nat
  end_line : Nat
  start_col : Nat
  end_col : Nat
deriving DecidableEq, Repr

/-- `_index_to_line_col` (edit.py lines 69-74): 1-based line and column. -/
def indexToLineCol (t : Text) (i : Nat) : Nat × Nat :=
  let line := countNl (t.take i) + 1
  let col := match rfindNl t i with
    | some j => i - j
    | none => i + 1
  (line, col)

/-- `_compute_edit_location` (edit.py lines 77-86). -/
def computeEditLocation (content : Text) (startIdx endIdx : Nat) : EditLocation :=
  let s := indexToLineCol content startIdx
  let e := indexToLineCol content endIdx
  ⟨s.1, e.1, s.2, e.2⟩

/-- Character index just after the `k`-th newline of `t` (0 for `k = 0`);
used to interpret a 1-based (line, column) pair as a character index. -/
def posAfterNl : Text → Nat → Nat
  | _, 0 => 0
  | [], _ + 1 => 0
  | c :: cs, k + 1 =>
    if c = '\n' then 1 + posAfterNl cs k else 1 + posAfterNl cs (k + 1)

def charIndexOfLineCol (t : Text) (line col : Nat) : Nat :=
  posAfterNl t (line - 1) + (col - 1)

/-- The text designated by an `EditLocation` inside `t`. -/
def sliceLoc (t : Text) (loc : EditLocation) : Text :=
  (t.take (charIndexOfLineCol t loc.end_line loc.end_col)).drop
    (charIndexOfLineCol t loc.start_line loc.start_col)

/-- `\s` over the ASCII whitespace characters (Python `str.isspace` also
covers some Unicode spaces, which are not modelled). -/
def isPyWhitespace (c : Char) : Bool :=
  c = ' ' || c = '\t' || c = '\n' || c = '\r' || c = '\x0b' || c = '\x0c'

/-- `_build_whitespace_insensitive_pattern` (edit.py lines 113-128): each
maximal run of whitespace becomes one `\s+` token, every other character a
literal. -/
inductive WsTok where
  | lit (c : Char)
  | ws
deriving DecidableEq, Repr

theorem dropWhile_length_le (p : Char → Bool) (l : Text) :
    (l.dropWhile p).length ≤ l.length := by
  induction l with
  | nil => simp
  | cons c rest ih =>
    by_cases h : p c
    · simp only [List.dropWhile_cons, h, if_true]
      exact Nat.le_trans ih (Nat.le_succ _)
    · simp [List.dropWhile_cons, h]

def buildWsTokensAux : Nat → Text → List WsTok
  | 0, _ => []
  | fuel + 1, t =>
    match t with
    | [] => []
    | c :: rest =>
      if isPyWhitespace c then
        .ws :: buildWsTokensAux fuel (rest.dropWhile isPyWhitespace)
      else .lit c :: buildWsTokensAux fuel rest

def buildWsTokens (t : Text) : List WsTok := buildWsTokensAux t.length t

/-- Matching one whitespace-insensitive pattern at position `i` of `s`.  In a
pattern produced by `buildWsTokens` a `\s+` token is never followed by a
whitespace literal or another `\s+`, so the greedy maximal-run semantics here
coincides with Python's backtracking regex (in DOTALL mode, `\s` freely
matching newlines). -/
def matchTokensFrom (s : Text) : List WsTok → Nat → Option Nat
  | [], i => some i
  | .lit c :: ts, i =>
    match s.get? i with
    | some d => if d = c then matchTokensFrom s ts (i + 1) else none
    | none => none
  | .ws :: ts, i =>
    let j := i + ((s.drop i).takeWhile isPyWhitespace).length
    if j = i then none else matchTokensFrom s ts j

/-- `re.finditer`: non-overlapping matches, scanning left to right. -/
def findIterAux (toks : List WsTok) (s : Text) : Nat → Nat → List (Nat × Nat)
  | 0, _ => []
  | fuel + 1, i =>
    if i > s.length then []
    else
      match matchTokensFrom s toks i with
      | some j => (i, j) :: findIterAux toks s fuel j
      | none => findIterAux toks s fuel (i + 1)

def findIter (toks : List WsTok) (s : Text) : List (Nat × Nat) :=
  findIterAux toks s (s.length + 1) 0

/-- `re.subn(pattern, replacement, content, count=n)` on the spans that
`findIter` produced: the selected spans are replaced by `rep` (regex
group-reference escapes inside the replacement are not modelled; the
replacement is inserted literally). -/
def replaceSpans (s rep : Text) : Nat → List (Nat × Nat) → Text
  | pos, [] => s.drop pos
  | pos, (a, b) :: rest => ((s.take a).drop pos) ++ rep ++ replaceSpans s rep b rest

/-- Python's global `str.replace` (all non-overlapping occurrences, left to
right), again fuelled by `s.length` to stay structural.  The empty-pattern
case is unreachable in the callers (empty searches are rejected up front). -/
def replaceAllAux (sub rep : Text) : Nat → Text → Text
  | 0, s => s
  | fuel + 1, s =>
    match s with
    | [] => []
    | c :: cs =>
      if sub.isPrefixOf (c :: cs) then
        rep ++ replaceAllAux sub rep fuel (List.drop sub.length (c :: cs))
      else c :: replaceAllAux sub rep fuel cs

def replaceAll (s sub rep : Text) : Text :=
  if sub = [] then s else replaceAllAux sub rep s.length s

/-- `content.index(sub, start)` (absolute index of the first occurrence at or
after `start`). -/
def firstIdxFrom (s sub : Text) (start : Nat) : Option Nat :=
  (firstIdx (s.drop start) sub).map (· + start)

/-- The loop of edit.py lines 197-203 / 355-361: the spans of the first `n`
occurrences, scanning from `start`; `none` models the unreachable
`str.index` failure. -/
def collectSpans (content ns : Text) : Nat → Nat → Option (List (Nat × Nat))
  | 0, _ => some []
  | n + 1, start =>
    match firstIdxFrom content ns start with
    | none => none
    | some i => (collectSpans content ns n (i + ns.length)).map ((i, i + ns.length) :: ·)

/-- Longest common subsequence length, standing in for the matched-character
count of `difflib.SequenceMatcher` (whose exact block-matching heuristics are
not modelled; no claim depends on the numeric value). -/
def lcsLenAux : Nat → Text → Text → Nat
  | 0, _, _ => 0
  | fuel + 1, a, b =>
    match a, b with
    | [], _ => 0
    | _ :: _, [] => 0
    | x :: xs, y :: ys =>
      if x = y then 1 + lcsLenAux fuel xs ys
      else max (lcsLenAux fuel (x :: xs) ys) (lcsLenAux fuel xs (y :: ys))

def lcsLen (a b : Text) : Nat := lcsLenAux (a.length + b.length) a b

/-- An unreduced non-negative fraction.  Similarity scores are exact
rationals; comparing them by cross-multiplication is exactly the real-number
comparison the source performs on floats, and (unlike `ℚ`, whose
normalization is not kernel-computable) it lets witnesses evaluate. -/
structure Frac where
  num : Nat
  den : Nat
deriving DecidableEq, Repr

/-- `a > b` for fractions with positive denominators. -/
def Frac.gtFrac (a b : Frac) : Bool := a.num * b.den > b.num * a.den

/-- `a ≥ b` for fractions with positive denominators. -/
def Frac.geFrac (a b : Frac) : Bool := a.num * b.den ≥ b.num * a.den

/-- `SequenceMatcher(None, a, b).ratio()`: `2*M / (len(a)+len(b))`,
and 1 when both are empty. -/
def simScore (a b : Text) : Frac :=
  if a.length + b.length = 0 then ⟨1, 1⟩
  else ⟨2 * lcsLen a b, a.length + b.length⟩

/-- Python `range(0, stop, step)` for `step ≥ 1`. -/
def rangeStep (stop step : Nat) : List Nat :=
  (List.range ((stop + step - 1) / step)).map (· * step)

/-- `_best_fuzzy_match` (edit.py lines 89-103): slide a window of the
needle's length at a stride of about 20% of the window, keep the
best-scoring segment. -/
def bestFuzzyMatch (content needle : Text) : Text × Frac :=
  if content = [] ∨ needle = [] then ([], ⟨0, 1⟩)
  else
    let window := max 1 needle.length
    let step := max 1 (window / 5)
    let limit := content.length - window
    (rangeStep (max 1 (limit + 1)) step).foldl
      (fun best i =>
        let segment := (content.drop i).take window
        let r := simScore needle segment
        if r.gtFrac best.2 then (segment, r) else best)
      ([], ⟨0, 1⟩)

/-- `_unescape_literal` (edit.py lines 131-136), for the common escapes its
docstring names (full `unicode_escape` decoding is not modelled). -/
def unescapeLiteral : Text → Text
  | [] => []
  | '\\' :: 'n' :: rest => '\n' :: unescapeLiteral rest
  | '\\' :: 't' :: rest => '\t' :: unescapeLiteral rest
  | '\\' :: 'r' :: rest => '\r' :: unescapeLiteral rest
  | '\\' :: '\\' :: rest => '\\' :: unescapeLiteral rest
  | '\\' :: '"' :: rest => '"' :: unescapeLiteral rest
  | c :: rest => c :: unescapeLiteral rest

def FUZZY_THRESHOLD : Frac := ⟨7, 10⟩

/-- Modelled from the spec: `FILE_SIZE_LIMITS["LARGE_FILE_THRESHOLD"]` lives
in `tools/config.py`, which is absent from the sources; spec §4.3 gives
10 MiB, matching the fallback `10 * 1024 * 1024` used at call sites. -/
def LARGE_FILE_THRESHOLD : Nat := 10 * 1024 * 1024

structure EditResult where
  status : String
  message : String
  file_path : String
  replacements : Nat
  locations : List EditLocation
deriving DecidableEq, Repr

structure InMemoryEditResult where
  new_content : Text
  message : String
  replacements : Nat
  locations : List EditLocation
deriving DecidableEq, Repr

def locSummary (locs : List EditLocation) : String :=
  String.intercalate ", " (locs.map (fun loc =>
    if loc.start_line ≠ loc.end_line then
      let a := loc.start_line
      let b := loc.end_line
      s!"lines {a}-{b}"
    else
      let a := loc.start_line
      s!"line {a}"))

def successMessage (expected : Nat) (filePath : String) (summary : String) : String :=
  s!"Applied {expected} edit(s) to {filePath} ({summary})"

def successMessageWs (expected : Nat) (filePath : String) (summary : String) : String :=
  s!"Applied {expected} edit(s) to {filePath} with whitespace-insensitive matching ({summary})"

def inMemoryMessage (expected : Nat) (summary : String) : String :=
  s!"Applied {expected} edit(s) ({summary})"

def inMemoryMessageWs (expected : Nat) (summary : String) : String :=
  s!"Applied {expected} edit(s) with whitespace-insensitive matching ({summary})"

/-- The terminal fuzzy block shared by edit.py lines 276-304 and 415-429:
diagnostic only, always fails (`CloseMatchNotExact` at or above the 0.7
threshold, `NoMatch` below).  The audit-log append goes to a temp-dir file
outside the sandboxed filesystem state and is not modelled. -/
def fuzzyOutcome (content searchEff : Text) : FsErr :=
  let fz := bestFuzzyMatch content searchEff
  if fz.2.geFrac FUZZY_THRESHOLD then .closeMatchNotExact else .noMatch

/-- The spans selected by the exact strategy: for `expected = 1` the single
`content.index` hit, otherwise the per-occurrence scan loop. -/
def exactSpans (content ns : Text) (expected : Nat) : Option (List (Nat × Nat)) :=
  if expected = 1 then (firstIdx content ns).map (fun i => [(i, i + ns.length)])
  else collectSpans content ns expected 0

/-- The new content built by the exact strategy: splice for `expected = 1`
(edit.py lines 187-195), global `str.replace` otherwise (line 204). -/
def exactNewContent (content ns rep : Text) (expected : Nat)
    (spans : List (Nat × Nat)) : Text :=
  if expected = 1 then
    match spans with
    | (i, e) :: _ => content.take i ++ rep ++ content.drop e
    | [] => content
  else replaceAll content ns rep

/-- The line span of a whitespace-insensitive match,
`max(1, m.group(0).count("\n") + 1)` (edit.py line 248).  The float guard
`matched_lines > match_line_count * 1.5` is modelled exactly as
`2 * matched_lines > 3 * match_line_count`. -/
def spanLineCount (content : Text) (m : Nat × Nat) : Nat :=
  max 1 (countNl ((content.take m.2).drop m.1) + 1)

/-- `perform_search_replace` (edit.py lines 139-304), acting on the modelled
filesystem state; the pair's second component is the state after the call
(unchanged whenever the result is an error, since every `raise` in the source
happens before the single `write_file`).  The advisory long-block `WARNING`
suffix of the success message (driven by the absent `tools/config.py` write
limit) is not modelled. -/
def performSearchReplace (fs : FSt) (filePath : String)
    (search replSrc : Text) (expected : Nat) (expectedMtime : Option ℚ)
    (ignoreWhitespace normalizeEscapes : Bool) (now : ℚ) :
    Except FsErr EditResult × FSt :=
  if search = [] then (.error .emptySearch, fs)
  else
    match fs filePath with
    | none => (.error .notFound, fs)
    | some data =>
      if data.content.length > LARGE_FILE_THRESHOLD then (.error .tooLarge, fs)
      else
        match readFileInternal fs filePath 0 (2 ^ 30) with
        | .error e => (.error e, fs)
        | .ok content =>
          let lineEnding := detectLineEnding content
          let searchEff := if normalizeEscapes then unescapeLiteral search else search
          let ns := normalizeLineEndings searchEff lineEnding
          let count := countOcc content ns
          if count > 0 then
            if count ≠ expected then
              (.error (.matchCountMismatch count expected), fs)
            else
              match exactSpans content ns expected with
              | none => (.error .internalIndexError, fs)
              | some spans =>
                let locations := spans.map (fun sp => computeEditLocation content sp.1 sp.2)
                let rep := normalizeLineEndings replSrc lineEnding
                let newContent := exactNewContent content ns rep expected spans
                match writeFile fs filePath newContent .rewrite expectedMtime now with
                | .error e => (.error e, fs)
                | .ok (fs', _) =>
                  let summary := locSummary locations
                  (.ok { status := "success"
                         message := successMessage expected filePath summary
                         file_path := filePath
                         replacements := expected
                         locations := locations }, fs')
          else if ignoreWhitespace then
            let toks := buildWsTokens ns
            let matchList := findIter toks content
            let matchCount := matchList.length
            if matchCount > 0 ∧ matchCount ≠ expected then
              (.error (.wsCountMismatch matchCount expected), fs)
            else if matchCount > 0 then
              let locations := (matchList.take expected).map
                (fun m => computeEditLocation content m.1 m.2)
              let rep := normalizeLineEndings replSrc lineEnding
              let newContent := replaceSpans content rep 0 (matchList.take expected)
              let subCount := min expected matchCount
              let matchLineCount := max 1 (countNl ns + 1)
              match (matchList.take expected).find?
                  (fun m => 2 * spanLineCount content m > 3 * matchLineCount) with
              | some m =>
                (.error (.overlyGreedy (spanLineCount content m) matchLineCount), fs)
              | none =>
                if subCount ≠ expected then
                  (.error (.subnMismatch subCount expected), fs)
                else
                  match writeFile fs filePath newContent .rewrite expectedMtime now with
                  | .error e => (.error e, fs)
                  | .ok (fs', _) =>
                    let summary := locSummary locations
                    (.ok { status := "success"
                           message := successMessageWs expected filePath summary
                           file_path := filePath
                           replacements := expected
                           locations := locations }, fs')
            else (.error (fuzzyOutcome content searchEff), fs)
          else (.error (fuzzyOutcome content searchEff), fs)

/-- `perform_single_edit_in_memory` (edit.py lines 307-429).  Note the
whitespace-insensitive branch here has neither the over-greedy guard nor the
`sub_count` re-check of the file-backed variant. -/
def performSingleEditInMemory (content search replSrc : Text)
    (expected : Nat) (ignoreWhitespace normalizeEscapes : Bool) :
    Except FsErr InMemoryEditResult :=
  if search = [] then .error .emptySearch
  else
    let lineEnding := detectLineEnding content
    let searchEff := if normalizeEscapes then unescapeLiteral search else search
    let ns := normalizeLineEndings searchEff lineEnding
    let count := countOcc content ns
    if count > 0 then
      if count ≠ expected then .error (.matchCountMismatch count expected)
      else
        match exactSpans content ns expected with
        | none => .error .internalIndexError
        | some spans =>
          let locations := spans.map (fun sp => computeEditLocation content sp.1 sp.2)
          let rep := normalizeLineEndings replSrc lineEnding
          let summary := locSummary locations
          .ok { new_content := exactNewContent content ns rep expected spans
                message := inMemoryMessage expected summary
                replacements := expected
                locations := locations }
    else if ignoreWhitespace then
      let toks := buildWsTokens ns
      let matchList := findIter toks content
      let matchCount := matchList.length
      if matchCount > 0 ∧ matchCount ≠ expected then
        .error (.wsCountMismatch matchCount expected)
      else if matchCount > 0 then
        let locations := (matchList.take expected).map
          (fun m => computeEditLocation content m.1 m.2)
        let rep := normalizeLineEndings replSrc lineEnding
        let summary := locSummary locations
        .ok { new_content := replaceSpans content rep 0 (matchList.take expected)
              message := inMemoryMessageWs expected summary
              replacements := expected
              locations := locations }
      else .error (fuzzyOutcome content searchEff)
    else .error (fuzzyOutcome content searchEff)

/-! ## Support lemmas for the edit-engine claims -/

theorem univNewlines_length_le : ∀ t : Text, (univNewlines t).length ≤ t.length
  | [] => by simp [univNewlines]
  | [c] => by by_cases h : c = '\r' <;> simp [univNewlines, h]
  | c :: d :: rest => by
    have ih1 := univNewlines_length_le rest
    have ih2 := univNewlines_length_le (d :: rest)
    by_cases h : c = '\r'
    · by_cases h2 : d = '\n' <;>
        · simp only [univNewlines, h, h2, if_true, if_false, List.length_cons]
          simp only [List.length_cons] at ih1 ih2 ⊢
          omega
    · simp only [univNewlines, h, if_false, List.length_cons]
      simp only [List.length_cons] at ih2
      omega

/-- For a file that passes the large-file guard, the internal read used by
`perform_search_replace` returns the whole (universal-newline translated)
content: the `1 << 30` line cap cannot truncate a ≤ 10 MiB file. -/
theorem readFileInternal_small (fs : FSt) (path : String) (data : FileData)
    (hfile : fs path = some data)
    (hsize : data.content.length ≤ LARGE_FILE_THRESHOLD) :
    readFileInternal fs path 0 (2 ^ 30) = .ok (univNewlines data.content) := by
  have hbig : ¬ ((0 : Nat) = 0 ∧ (2 ^ 30 : Nat) ≥ 2 ^ 53) := by
    intro h
    have := h.2
    norm_num at this
  have hlen : (splitKeep (univNewlines data.content)).length ≤ 2 ^ 30 := by
    have h1 := length_splitKeep (univNewlines data.content)
    have h2 := univNewlines_length_le data.content
    have : LARGE_FILE_THRESHOLD ≤ 2 ^ 30 := by norm_num [LARGE_FILE_THRESHOLD]
    omega
  simp only [readFileInternal, hfile]
  rw [if_neg (by norm_num : ¬ (True ∧ (2 ^ 30 : Nat) ≥ 2 ^ 53)),
    List.drop_zero, List.take_of_length_le hlen, join_splitKeep]

theorem firstIdxAux_nil (sub : Text) (i : Nat) :
    firstIdxAux sub [] i = if sub = [] then some i else none := rfl

theorem firstIdxAux_cons (sub : Text) (c : Char) (cs : Text) (i : Nat) :
    firstIdxAux sub (c :: cs) i =
      if sub.isPrefixOf (c :: cs) then some i else firstIdxAux sub cs (i + 1) := rfl

theorem firstIdxAux_shift (sub s : Text) : ∀ i : Nat,
    firstIdxAux sub s i = (firstIdxAux sub s 0).map (· + i) := by
  induction s with
  | nil =>
    intro i
    rw [firstIdxAux_nil, firstIdxAux_nil]
    by_cases h : sub = []
    · rw [if_pos h, if_pos h]
      simp
    · rw [if_neg h, if_neg h]
      rfl
  | cons c cs ih =>
    intro i
    rw [firstIdxAux_cons, firstIdxAux_cons]
    by_cases h : sub.isPrefixOf (c :: cs)
    · simp [h]
    · rw [if_neg h, if_neg h, ih (i + 1), ih 1, Option.map_map]
      congr 1
      funext x
      simp only [Function.comp_apply]
      omega

theorem firstIdx_cons (sub : Text) (c : Char) (cs : Text) :
    firstIdx (c :: cs) sub =
      if sub.isPrefixOf (c :: cs) then some 0
      else (firstIdx cs sub).map (· + 1) := by
  unfold firstIdx
  rw [firstIdxAux_cons, firstIdxAux_shift]

theorem firstIdx_spec (s sub : Text) : ∀ j : Nat, firstIdx s sub = some j →
    sub.isPrefixOf (s.drop j) = true ∧ j + sub.length ≤ s.length := by
  induction s with
  | nil =>
    intro j h
    unfold firstIdx at h
    rw [firstIdxAux_nil] at h
    by_cases hsub : sub = []
    · simp only [hsub, if_true, Option.some.injEq] at h
      simp [hsub, ← h]
    · simp [hsub] at h
  | cons c cs ih =>
    intro j h
    rw [firstIdx_cons] at h
    by_cases hpre : sub.isPrefixOf (c :: cs)
    · rw [if_pos hpre] at h
      simp only [Option.some.injEq] at h
      subst h
      refine ⟨by simpa using hpre, ?_⟩
      have := List.IsPrefix.length_le (List.isPrefixOf_iff_prefix.mp hpre)
      simpa using this
    · rw [if_neg hpre] at h
      match hmap : firstIdx cs sub with
      | none => rw [hmap] at h; simp at h
      | some j' =>
        rw [hmap] at h
        simp at h
        have hspec := ih j' hmap
        constructor
        · rw [← h]
          simpa using hspec.1
        · have := hspec.2
          simp only [List.length_cons]
          omega

theorem countOccAux_pos_isSome (sub : Text) :
    ∀ fuel s, 0 < countOccAux sub fuel s → (firstIdx s sub).isSome = true := by
  intro fuel
  induction fuel with
  | zero => intro s h; simp [countOccAux] at h
  | succ fuel ih =>
    intro s h
    match s with
    | [] => simp [countOccAux] at h
    | c :: cs =>
      rw [firstIdx_cons]
      by_cases hpre : sub.isPrefixOf (c :: cs)
      · simp [hpre]
      · simp only [countOccAux, hpre, if_false] at h
        have := ih cs h
        rw [if_neg hpre]
        match hmap : firstIdx cs sub with
        | none => rw [hmap] at this; simp at this
        | some j => simp

theorem countOcc_pos_firstIdx (s sub : Text) (hsub : sub ≠ [])
    (h : 0 < countOcc s sub) : ∃ i, firstIdx s sub = some i := by
  unfold countOcc at h
  simp only [hsub, if_false] at h
  have := countOccAux_pos_isSome sub s.length s h
  match hmap : firstIdx s sub with
  | none => rw [hmap] at this; simp at this
  | some i => exact ⟨i, rfl⟩

theorem rfindNl_zero (s : Text) : rfindNl s 0 = none := by
  cases s <;> rfl

theorem rfindNl_cons_succ (c : Char) (cs : Text) (i : Nat) :
    rfindNl (c :: cs) (i + 1) =
      match rfindNl cs i with
      | some j => some (j + 1)
      | none => if c = '\n' then some 0 else none := rfl

theorem posAfterNl_zero (s : Text) : posAfterNl s 0 = 0 := by
  cases s <;> rfl

theorem posAfterNl_cons_succ (c : Char) (cs : Text) (k : Nat) :
    posAfterNl (c :: cs) (k + 1) =
      if c = '\n' then 1 + posAfterNl cs k else 1 + posAfterNl cs (k + 1) := rfl

theorem countNl_take_succ_cons (c : Char) (cs : Text) (i : Nat) :
    countNl ((c :: cs).take (i + 1)) =
      countNl (cs.take i) + (if c = '\n' then 1 else 0) := by
  simp only [List.take_succ_cons, countNl, List.count_cons, beq_iff_eq]

theorem rfindNl_lt (s : Text) : ∀ i j, rfindNl s i = some j → j < i := by
  induction s with
  | nil =>
    intro i j h
    cases i with
    | zero => rw [rfindNl_zero] at h; simp at h
    | succ i' => simp [rfindNl] at h
  | cons c cs ih =>
    intro i j h
    cases i with
    | zero => rw [rfindNl_zero] at h; simp at h
    | succ i' =>
      rw [rfindNl_cons_succ] at h
      match hrec : rfindNl cs i' with
      | some j' =>
        rw [hrec] at h
        simp only [Option.some.injEq] at h
        have := ih i' j' hrec
        omega
      | none =>
        rw [hrec] at h
        by_cases hc : c = '\n'
        · simp only [hc, if_true, Option.some.injEq] at h
          omega
        · simp [hc] at h

theorem rfindNl_none_iff (s : Text) : ∀ i, i ≤ s.length →
    (rfindNl s i = none ↔ countNl (s.take i) = 0) := by
  induction s with
  | nil =>
    intro i hi
    have : i = 0 := by simpa using hi
    subst this
    simp [rfindNl_zero, countNl]
  | cons c cs ih =>
    intro i hi
    cases i with
    | zero => simp [rfindNl_zero, countNl]
    | succ i' =>
      have hi' : i' ≤ cs.length := by simpa using hi
      rw [countNl_take_succ_cons, rfindNl_cons_succ]
      match hrec : rfindNl cs i' with
      | some j =>
        constructor
        · intro h; simp at h
        · intro h
          have h0 : countNl (cs.take i') = 0 := by
            by_cases hc : c = '\n' <;> simp [hc] at h
            all_goals omega
          have := (ih i' hi').mpr h0
          rw [hrec] at this
          simp at this
      | none =>
        have h0 : countNl (cs.take i') = 0 := (ih i' hi').mp hrec
        by_cases hc : c = '\n'
        · simp [hc, h0]
        · simp [hc, h0]

def rfindSucc (o : Option Nat) : Nat := o.elim 0 (· + 1)

theorem rfindSucc_none : rfindSucc none = 0 := rfl

theorem rfindSucc_some (j : Nat) : rfindSucc (some j) = j + 1 := rfl

theorem posAfterNl_eq_rfindSucc (s : Text) : ∀ i, i ≤ s.length →
    posAfterNl s (countNl (s.take i)) = rfindSucc (rfindNl s i) := by
  induction s with
  | nil =>
    intro i hi
    have : i = 0 := by simpa using hi
    subst this
    simp [posAfterNl_zero, countNl, rfindNl_zero, rfindSucc]
  | cons c cs ih =>
    intro i hi
    cases i with
    | zero => simp [posAfterNl_zero, countNl, rfindNl_zero, rfindSucc]
    | succ i' =>
      have hi' : i' ≤ cs.length := by simpa using hi
      rw [countNl_take_succ_cons, rfindNl_cons_succ]
      by_cases hc : c = '\n'
      · rw [if_pos hc, posAfterNl_cons_succ, if_pos hc, ih i' hi']
        match hrec : rfindNl cs i' with
        | some j =>
          show 1 + rfindSucc (some j) = rfindSucc (some (j + 1))
          rw [rfindSucc_some, rfindSucc_some]
          omega
        | none =>
          show 1 + rfindSucc none = rfindSucc (if c = '\n' then some 0 else none)
          rw [if_pos hc, rfindSucc_none, rfindSucc_some]
      · rw [if_neg hc, Nat.add_zero]
        match hk : countNl (cs.take i') with
        | 0 =>
          have hnone : rfindNl cs i' = none := (rfindNl_none_iff cs i' hi').mpr hk
          rw [hnone, posAfterNl_zero]
          show (0 : Nat) = rfindSucc (if c = '\n' then some 0 else none)
          rw [if_neg hc, rfindSucc_none]
        | k + 1 =>
          have hsome : rfindNl cs i' ≠ none := by
            intro hn
            have := (rfindNl_none_iff cs i' hi').mp hn
            omega
          match hrec : rfindNl cs i' with
          | none => exact absurd hrec hsome
          | some j =>
            have hk' : countNl (List.take i' cs) = k + 1 := by
              rw [hk]
            rw [posAfterNl_cons_succ, if_neg hc, ← hk', ih i' hi', hrec]
            show 1 + rfindSucc (some j) = rfindSucc (some (j + 1))
            rw [rfindSucc_some, rfindSucc_some]
            omega

theorem indexToLineCol_eq (t : Text) (i : Nat) :
    indexToLineCol t i = (countNl (t.take i) + 1,
      match rfindNl t i with | some j => i - j | none => i + 1) := rfl

theorem charIndex_roundtrip (s : Text) (k : Nat) (hk : k ≤ s.length) :
    charIndexOfLineCol s (indexToLineCol s k).1 (indexToLineCol s k).2 = k := by
  have hpos := posAfterNl_eq_rfindSucc s k hk
  match hrec : rfindNl s k with
  | none =>
    rw [hrec] at hpos
    rw [indexToLineCol_eq, hrec]
    simp only [charIndexOfLineCol, Nat.add_sub_cancel]
    rw [hpos, rfindSucc_none]
    omega
  | some j =>
    have hj : j < k := rfindNl_lt s k j hrec
    rw [hrec] at hpos
    rw [indexToLineCol_eq, hrec]
    simp only [charIndexOfLineCol, Nat.add_sub_cancel]
    rw [hpos, rfindSucc_some]
    exact (by omega : j + 1 + (k - j - 1) = k)

theorem sliceLoc_computeEditLocation (content : Text) (i e : Nat)
    (hi : i ≤ content.length) (he : e ≤ content.length) :
    sliceLoc content (computeEditLocation content i e) =
      (content.take e).drop i := by
  simp only [sliceLoc, computeEditLocation]
  rw [charIndex_roundtrip content i hi, charIndex_roundtrip content e he]

theorem take_drop_of_prefix_at (s sub : Text) (i : Nat)
    (h : sub.isPrefixOf (s.drop i) = true) :
    (s.take (i + sub.length)).drop i = sub := by
  obtain ⟨t, ht⟩ := List.isPrefixOf_iff_prefix.mp h
  rw [List.drop_take]
  have heq : i + sub.length - i = sub.length := by omega
  rw [heq, ← ht]
  exact List.take_left sub t

/-! ## C4, C5, C8: the search-replace pipeline -/

/-- **C4.** When the exact strategy finds at least one occurrence of the
line-ending-normalized search text but the count differs from the expected
count, both the file-backed and the in-memory search-replace fail with the
match-count-mismatch error (not a whitespace or fuzzy error), and the
filesystem state is unchanged: the error is raised before the single write. -/
theorem exact_count_mismatch_fails_without_write (fs : FSt) (filePath : String)
    (data : FileData) (search replSrc c ns : Text) (expected k : Nat)
    (expectedMtime : Option ℚ) (iw nesc : Bool) (now : ℚ)
    (hfile : fs filePath = some data)
    (hsize : data.content.length ≤ LARGE_FILE_THRESHOLD)
    (hsearch : search ≠ [])
    (hc : c = univNewlines data.content)
    (hns : ns = normalizeLineEndings
      (if nesc then unescapeLiteral search else search) (detectLineEnding c))
    (hcount : countOcc c ns = k)
    (hk : 0 < k) (hkne : k ≠ expected) :
    performSearchReplace fs filePath search replSrc expected expectedMtime
        iw nesc now = (.error (.matchCountMismatch k expected), fs) ∧
    performSingleEditInMemory c search replSrc expected iw nesc =
      .error (.matchCountMismatch k expected) := by
  have hread := readFileInternal_small fs filePath data hfile hsize
  rw [← hc] at hread
  have hsz : ¬ data.content.length > LARGE_FILE_THRESHOLD := by omega
  constructor
  · unfold performSearchReplace
    rw [if_neg hsearch, hfile]
    simp only
    rw [if_neg hsz, hread]
    simp only
    rw [← hns, hcount, if_pos hk, if_pos hkne]
  · unfold performSingleEditInMemory
    rw [if_neg hsearch]
    simp only
    rw [← hns, hcount, if_pos hk, if_pos hkne]

/-- Witness for C4: content `"xx"`, search `"x"`, `expected_count = 1` —
two exact occurrences, so both variants fail with the count mismatch and the
file keeps its content. -/
theorem exact_count_mismatch_fails_without_write_witness :
    performSearchReplace (fun p => if p = "f" then some ⟨"xx".toList, 0⟩ else none)
        "f" "x".toList "y".toList 1 none false false 1 =
      (.error (.matchCountMismatch 2 1),
        fun p => if p = "f" then some ⟨"xx".toList, 0⟩ else none) ∧
    performSingleEditInMemory "xx".toList "x".toList "y".toList 1 false false =
      .error (.matchCountMismatch 2 1) :=
  exact_count_mismatch_fails_without_write
    (fun p => if p = "f" then some ⟨"xx".toList, 0⟩ else none)
    "f" ⟨"xx".toList, 0⟩ "x".toList "y".toList "xx".toList "x".toList 1 2
    none false false 1 rfl (by decide) (by decide) (by decide) (by decide)
    (by decide) (by decide) (by decide)

/-- A one-file filesystem fixture used by the C8 counterexample. -/
def sampleFS : FSt := fun p => if p = "f" then some ⟨"ab".toList, 0⟩ else none

/-- **C8 (counterexample).** The returned location is computed on the
*pre-edit* content over the matched span, so slicing the *new* content at it
does not give the replacement when the replacement's length differs: replacing
the sole `"ab"` by `"abcd"` yields location (1,1)-(1,3), and slicing the new
content `"abcd"` there gives `"ab"`, not `"abcd"`. -/
theorem location_slice_of_new_content_counterexample :
    (performSearchReplace sampleFS "f" "ab".toList "abcd".toList 1 none
        false false 1).1.toOption.map EditResult.locations =
      some [⟨1, 1, 1, 3⟩] ∧
    (performSearchReplace sampleFS "f" "ab".toList "abcd".toList 1 none
        false false 1).2.contentAt "f" = some "abcd".toList ∧
    sliceLoc "abcd".toList ⟨1, 1, 1, 3⟩ = "ab".toList ∧
    "ab".toList ≠ "abcd".toList :=
  ⟨by decide, by decide, by decide, by decide⟩

/-- **C8 (amended).** For content with exactly one occurrence of the
(normalized, non-empty) search text, replace with `expected_count = 1`
succeeds, the new content is the splice at the matched span, and the returned
location designates the matched span in the *pre-edit* content: slicing the
pre-edit content at it yields exactly the normalized search text. -/
theorem exact_single_replace_location_in_original (fs : FSt) (filePath : String)
    (data : FileData) (search replSrc c ns : Text) (iw nesc : Bool) (now : ℚ)
    (hfile : fs filePath = some data)
    (hsize : data.content.length ≤ LARGE_FILE_THRESHOLD)
    (hsearch : search ≠ []) (hnsne : ns ≠ [])
    (hc : c = univNewlines data.content)
    (hns : ns = normalizeLineEndings
      (if nesc then unescapeLiteral search else search) (detectLineEnding c))
    (hcount : countOcc c ns = 1) :
    ∃ idx, firstIdx c ns = some idx ∧
      (performSearchReplace fs filePath search replSrc 1 none iw nesc
          now).1.toOption.map EditResult.locations =
        some [computeEditLocation c idx (idx + ns.length)] ∧
      (performSearchReplace fs filePath search replSrc 1 none iw nesc
          now).2.contentAt filePath =
        some (c.take idx ++ normalizeLineEndings replSrc (detectLineEnding c) ++
          c.drop (idx + ns.length)) ∧
      sliceLoc c (computeEditLocation c idx (idx + ns.length)) = ns := by
  have hread := readFileInternal_small fs filePath data hfile hsize
  rw [← hc] at hread
  have hsz : ¬ data.content.length > LARGE_FILE_THRESHOLD := by omega
  obtain ⟨idx, hidx⟩ := countOcc_pos_firstIdx c ns hnsne (by omega)
  have hspec := firstIdx_spec c ns idx hidx
  have hspans : exactSpans c ns 1 = some [(idx, idx + ns.length)] := by
    unfold exactSpans
    rw [if_pos rfl, hidx]
    rfl
  have hnewc : exactNewContent c ns
      (normalizeLineEndings replSrc (detectLineEnding c)) 1
      [(idx, idx + ns.length)] =
      c.take idx ++ normalizeLineEndings replSrc (detectLineEnding c) ++
        c.drop (idx + ns.length) := by
    unfold exactNewContent
    rw [if_pos rfl]
  have hwrite : writeFile fs filePath
      (exactNewContent c ns (normalizeLineEndings replSrc (detectLineEnding c))
        1 [(idx, idx + ns.length)]) .rewrite none now =
      .ok (fs.update filePath
        ⟨exactNewContent c ns
          (normalizeLineEndings replSrc (detectLineEnding c)) 1
          [(idx, idx + ns.length)], now⟩,
        [.mkdirParents filePath, .openTruncate filePath,
         .writeData filePath (exactNewContent c ns
           (normalizeLineEndings replSrc (detectLineEnding c)) 1
           [(idx, idx + ns.length)]), .closeFile filePath]) := by
    unfold writeFile
    cases hfs : fs filePath <;> rfl
  have hmain :
      performSearchReplace fs filePath search replSrc 1 none iw nesc now =
        (.ok { status := "success",
               message := successMessage 1 filePath
                 (locSummary [computeEditLocation c idx (idx + ns.length)]),
               file_path := filePath,
               replacements := 1,
               locations := [computeEditLocation c idx (idx + ns.length)] },
         fs.update filePath
           ⟨exactNewContent c ns
             (normalizeLineEndings replSrc (detectLineEnding c)) 1
             [(idx, idx + ns.length)], now⟩) := by
    unfold performSearchReplace
    rw [if_neg hsearch, hfile]
    simp only
    rw [if_neg hsz, hread]
    simp only
    rw [← hns, hcount, if_pos (by norm_num : (1 : Nat) > 0),
      if_neg (by norm_num : ¬ ((1 : Nat) ≠ 1)), hspans]
    simp only
    rw [hwrite]
    rfl
  have hidxle : idx ≤ c.length := by
    have h2 := hspec.2
    have : 1 ≤ ns.length := by
      cases ns with
      | nil => exact absurd rfl hnsne
      | cons a l => simp
    omega
  refine ⟨idx, hidx, ?_, ?_, ?_⟩
  · rw [hmain]
    rfl
  · rw [hmain]
    simp only [FSt.contentAt, FSt.update, hnewc]
    simp
  · rw [sliceLoc_computeEditLocation c idx (idx + ns.length) hidxle hspec.2]
    exact take_drop_of_prefix_at c ns idx hspec.1

/-- Witness for C8 (amended): file `"hello world"`, search `"world"`, replace
`"there"` — the match starts at index 6 and slicing the original content at
the returned location gives back `"world"`. -/
theorem exact_single_replace_location_in_original_witness :
    ∃ idx, firstIdx "hello world".toList "world".toList = some idx ∧
      (performSearchReplace
          (fun p => if p = "w" then some ⟨"hello world".toList, 0⟩ else none)
          "w" "world".toList "there".toList 1 none false false
          1).1.toOption.map EditResult.locations =
        some [computeEditLocation "hello world".toList idx
          (idx + "world".toList.length)] ∧
      (performSearchReplace
          (fun p => if p = "w" then some ⟨"hello world".toList, 0⟩ else none)
          "w" "world".toList "there".toList 1 none false false
          1).2.contentAt "w" =
        some ("hello world".toList.take idx ++
          normalizeLineEndings "there".toList
            (detectLineEnding "hello world".toList) ++
          "hello world".toList.drop (idx + "world".toList.length)) ∧
      sliceLoc "hello world".toList
        (computeEditLocation "hello world".toList idx
          (idx + "world".toList.length)) = "world".toList :=
  exact_single_replace_location_in_original
    (fun p => if p = "w" then some ⟨"hello world".toList, 0⟩ else none)
    "w" ⟨"hello world".toList, 0⟩ "world".toList "there".toList
    "hello world".toList "world".toList false false 1 rfl (by decide)
    (by decide) (by decide) (by decide) (by decide) (by decide)

/-- **C5 (counterexample).** The in-memory variant used by the batch editor
has no over-greedy guard: searching `"a b"` in `"a\n\nb"` with whitespace
insensitivity matches the whole three-line content (spanning `3 > 1.5 × 1`
lines by the guard's own criterion) and the replacement is applied instead of
failing. -/
theorem in_memory_no_greedy_guard_counterexample :
    (performSingleEditInMemory "a\n\nb".toList "a b".toList "X".toList 1
        true false).toOption.map InMemoryEditResult.new_content =
      some "X".toList ∧
    findIter (buildWsTokens "a b".toList) "a\n\nb".toList = [(0, 4)] ∧
    spanLineCount "a\n\nb".toList (0, 4) = 3 ∧
    2 * spanLineCount "a\n\nb".toList (0, 4) >
      3 * max 1 (countNl "a b".toList + 1) :=
  ⟨by decide, by decide, by decide, by decide⟩

/-- **C5 (amended).** Only the file-backed replace enforces the guard: when a
selected whitespace-insensitive match spans more than 1.5× the line count of
the search text, `perform_search_replace` fails with the overly-greedy error
and leaves the filesystem untouched, while `perform_single_edit_in_memory`
has no such check and applies the replacement. -/
theorem ws_greedy_guard_file_backed_only (fs : FSt) (filePath : String)
    (data : FileData) (search replSrc c ns : Text) (expected : Nat)
    (expectedMtime : Option ℚ) (nesc : Bool) (now : ℚ)
    (matchList : List (Nat × Nat)) (m0 : Nat × Nat)
    (hfile : fs filePath = some data)
    (hsize : data.content.length ≤ LARGE_FILE_THRESHOLD)
    (hsearch : search ≠ [])
    (hc : c = univNewlines data.content)
    (hns : ns = normalizeLineEndings
      (if nesc then unescapeLiteral search else search) (detectLineEnding c))
    (hcount0 : countOcc c ns = 0)
    (hm : matchList = findIter (buildWsTokens ns) c)
    (hlen : matchList.length = expected)
    (hexp : 0 < expected)
    (hfind : (matchList.take expected).find?
        (fun m => 2 * spanLineCount c m > 3 * max 1 (countNl ns + 1)) =
      some m0) :
    performSearchReplace fs filePath search replSrc expected expectedMtime
        true nesc now =
      (.error (.overlyGreedy (spanLineCount c m0) (max 1 (countNl ns + 1))),
        fs) ∧
    ∃ r, performSingleEditInMemory c search replSrc expected true nesc =
        .ok r ∧
      r.new_content = replaceSpans c
        (normalizeLineEndings replSrc (detectLineEnding c)) 0
        (matchList.take expected) := by
  have hread := readFileInternal_small fs filePath data hfile hsize
  rw [← hc] at hread
  have hsz : ¬ data.content.length > LARGE_FILE_THRESHOLD := by omega
  have hcond : ¬ ((0 : Nat) > 0) := by norm_num
  have hmm : ¬ (matchList.length > 0 ∧ matchList.length ≠ expected) := by
    intro hcontra
    exact hcontra.2 hlen
  have hpos : matchList.length > 0 := by omega
  constructor
  · unfold performSearchReplace
    rw [if_neg hsearch, hfile]
    simp only
    rw [if_neg hsz, hread]
    simp only
    rw [← hns, hcount0, if_neg hcond, if_pos (trivial : True), ← hm,
      if_neg hmm, if_pos hpos, hfind]
  · have hred : performSingleEditInMemory c search replSrc expected true nesc =
        .ok { new_content := replaceSpans c
                (normalizeLineEndings replSrc (detectLineEnding c)) 0
                (matchList.take expected),
              message := inMemoryMessageWs expected (locSummary
                ((matchList.take expected).map
                  (fun m => computeEditLocation c m.1 m.2))),
              replacements := expected,
              locations := (matchList.take expected).map
                (fun m => computeEditLocation c m.1 m.2) } := by
      unfold performSingleEditInMemory
      rw [if_neg hsearch]
      simp only
      rw [← hns, hcount0, if_neg hcond, if_pos (trivial : True), ← hm,
        if_neg hmm, if_pos hpos]
    exact ⟨_, hred, rfl⟩

/-- A one-file filesystem fixture used by the C5 witness. -/
def sampleGreedyFS : FSt :=
  fun p => if p = "g" then some ⟨"a\n\nb".toList, 0⟩ else none

/-- Witness for C5 (amended) at the concrete greedy instance: the file-backed
call fails `OverlyGreedyMatch` with span 3 vs limit 1, the in-memory call
rewrites the content to `"X"`. -/
theorem ws_greedy_guard_file_backed_only_witness :
    performSearchReplace sampleGreedyFS "g" "a b".toList "X".toList 1 none
        true false 1 =
      (.error (.overlyGreedy 3 1), sampleGreedyFS) ∧
    ∃ r, performSingleEditInMemory "a\n\nb".toList "a b".toList "X".toList 1
        true false = .ok r ∧
      r.new_content = replaceSpans "a\n\nb".toList
        (normalizeLineEndings "X".toList
          (detectLineEnding "a\n\nb".toList)) 0
        ([(0, 4)].take 1) :=
  ws_greedy_guard_file_backed_only sampleGreedyFS "g" ⟨"a\n\nb".toList, 0⟩
    "a b".toList "X".toList "a\n\nb".toList "a b".toList 1 none false 1
    [(0, 4)] (0, 4) rfl (by decide) (by decide) (by decide) (by decide)
    (by decide) (by decide) (by decide) (by decide) (by decide)

/-! ## C9: the two tail-read strategies
(`src/tools/filesystem.py` lines 136-190)

`_read_last_n_lines_reverse` reads the raw bytes backward in fixed-size
chunks and splits on `"\n"` only; `_read_from_end_with_readline` iterates the
file in text mode (universal newlines) keeping the last `n` lines in a
bounded ring buffer.  Byte chunking is modelled at character granularity
(multi-byte UTF-8 sequences split across chunk boundaries are out of scope).
The chunk size comes from the absent `tools/config.py`
(`READ_PERFORMANCE_THRESHOLDS["CHUNK_SIZE"]`), so it is kept as a
parameter. -/

/-- Python `text.split("\n")`. -/
def splitNl : Text → List Text
  | [] => [[]]
  | c :: cs =>
    if c = '\n' then [] :: splitNl cs
    else
      match splitNl cs with
      | [] => [[c]]
      | l :: ls => (c :: l) :: ls

/-- Python `lines[-n:]` for `n ≥ 1` (the callers only use `n = abs(offset)`
with `offset < 0`). -/
def lastN (n : Nat) (l : List Text) : List Text := l.drop (l.length - n)

/-- `_generate_status_message` (filesystem.py lines 136-149). -/
def genStatusMessage (readLines : Nat) (offset : Int) (totalLines : Option Nat)
    (isNegOffset : Bool) : String :=
  if isNegOffset then
    match totalLines with
    | some t => s!"[Reading last {readLines} lines (total: {t} lines)]"
    | none => s!"[Reading last {readLines} lines]"
  else
    match totalLines with
    | some t =>
      let endLine := offset + readLines
      let remaining := max 0 (t - endLine)
      if offset = 0 then
        s!"[Reading {readLines} lines from start (total: {t} lines, {remaining} remaining)]"
      else
        s!"[Reading {readLines} lines from line {offset} (total: {t} lines, {remaining} remaining)]"
    | none =>
      if offset = 0 then s!"[Reading {readLines} lines from start]"
      else s!"[Reading {readLines} lines from line {offset}]"

/-- The `while position > 0 and len(lines) < n` loop of
`_read_last_n_lines_reverse`.  `pending` is the source's `partial` variable
(the text before the first newline of the processed suffix); the fuel is the
remaining byte budget, which bounds the iteration count since every pass
consumes at least one byte. -/
def revLoop (chunkSize n : Nat) (content : Text) :
    Nat → Nat → List Text → Text → List Text × Text × Nat
  | 0, pos, lines, pending => (lines, pending, pos)
  | fuel + 1, pos, lines, pending =>
    if pos = 0 ∨ n ≤ lines.length then (lines, pending, pos)
    else
      let readSize := min chunkSize pos
      let pos' := pos - readSize
      let chunk := (content.drop pos').take readSize
      let text := chunk ++ pending
      let parts := splitNl text
      revLoop chunkSize n content fuel pos' (parts.tail ++ lines)
        (parts.headD [])

/-- `_read_last_n_lines_reverse` (filesystem.py lines 152-176), returning the
`content` payload. -/
def readLastNLinesReverse (chunkSize : Nat) (content : Text) (n : Nat)
    (includeStatus : Bool) (fileTotalLines : Option Nat) : Text :=
  let r := revLoop chunkSize n content content.length content.length [] []
  let lines := if r.2.2 = 0 ∧ r.2.1 ≠ [] then r.2.1 :: r.1 else r.1
  let resultLines := lastN n lines
  let body := List.intercalate ['\n'] resultLines
  if includeStatus then
    (genStatusMessage resultLines.length (-(n : Int)) fileTotalLines
      true).toList ++ ('\n' :: '\n' :: body)
  else body

/-- One `rstrip("\n")` on a keepends line (such lines carry at most one
trailing newline). -/
def stripNl (l : Text) : Text :=
  if l.getLast? = some '\n' then l.dropLast else l

/-- `_read_from_end_with_readline` (filesystem.py lines 179-190): text-mode
iteration (universal newlines), keeping the last `n` lines in a
`deque(maxlen=n)`. -/
def readFromEndWithReadline (content : Text) (n : Nat)
    (includeStatus : Bool) (fileTotalLines : Option Nat) : Text :=
  let resultLines := lastN n ((splitKeep (univNewlines content)).map stripNl)
  let body := List.intercalate ['\n'] resultLines
  if includeStatus then
    (genStatusMessage resultLines.length (-(n : Int)) fileTotalLines
      true).toList ++ ('\n' :: '\n' :: body)
  else body

def headPart (ls : List Text) : Text := ls.headD []

def lastPart (ls : List Text) : Text := ls.getLastD []

theorem splitNl_ne_nil : ∀ t : Text, splitNl t ≠ [] := by
  intro t
  cases t with
  | nil => simp [splitNl]
  | cons c cs =>
    unfold splitNl
    by_cases hc : c = '\n'
    · simp [hc]
    · simp only [hc, if_false]
      match splitNl cs with
      | [] => simp
      | l :: ls => simp

theorem splitNl_cons_nl (cs : Text) : splitNl ('\n' :: cs) = [] :: splitNl cs := by
  simp [splitNl]

theorem splitNl_cons_def (c : Char) (cs : Text) :
    splitNl (c :: cs) = if c = '\n' then [] :: splitNl cs
      else match splitNl cs with
        | [] => [[c]]
        | l :: ls => (c :: l) :: ls := rfl

theorem splitNl_cons_ne (c : Char) (cs : Text) (hc : c ≠ '\n') :
    splitNl (c :: cs) = (c :: headPart (splitNl cs)) :: (splitNl cs).tail := by
  rw [splitNl_cons_def, if_neg hc]
  match h : splitNl cs with
  | [] => exact absurd h (splitNl_ne_nil cs)
  | l :: ls => simp [headPart]

theorem headD_cons_tail {α : Type} (l : List α) (d : α) (h : l ≠ []) :
    l.headD d :: l.tail = l := by
  cases l with
  | nil => exact absurd rfl h
  | cons a as => rfl

theorem dropLast_cons_ne {α : Type} (a : α) (l : List α) (h : l ≠ []) :
    (a :: l).dropLast = a :: l.dropLast := by
  cases l with
  | nil => exact absurd rfl h
  | cons b bs => rfl

theorem getLastD_cons_ne {α : Type} (a : α) (l : List α) (d : α) (h : l ≠ []) :
    (a :: l).getLastD d = l.getLastD d := by
  cases l with
  | nil => exact absurd rfl h
  | cons b bs => simp [List.getLastD]

/-- Splitting a concatenation: the last piece of `a` glues onto the first
piece of `b`. -/
theorem splitNl_append : ∀ a b : Text,
    splitNl (a ++ b) = (splitNl a).dropLast ++
      (lastPart (splitNl a) ++ headPart (splitNl b)) :: (splitNl b).tail := by
  intro a
  induction a with
  | nil =>
    intro b
    show splitNl b = ([[]] : List Text).dropLast ++
      (lastPart [[]] ++ headPart (splitNl b)) :: (splitNl b).tail
    have h1 : ([[]] : List Text).dropLast = [] := rfl
    have h2 : lastPart ([[]] : List Text) = [] := rfl
    rw [h1, h2, List.nil_append, List.nil_append]
    unfold headPart
    exact (headD_cons_tail _ _ (splitNl_ne_nil b)).symm
  | cons c a' ih =>
    intro b
    by_cases hc : c = '\n'
    · subst hc
      rw [List.cons_append, splitNl_cons_nl, splitNl_cons_nl, ih b,
        dropLast_cons_ne _ _ (splitNl_ne_nil a')]
      have h2 : lastPart ([] :: splitNl a') = lastPart (splitNl a') := by
        unfold lastPart
        exact getLastD_cons_ne _ _ _ (splitNl_ne_nil a')
      rw [h2, List.cons_append]
    · rw [List.cons_append, splitNl_cons_ne c (a' ++ b) hc,
        splitNl_cons_ne c a' hc, ih b]
      match hsa : splitNl a' with
      | [] => exact absurd hsa (splitNl_ne_nil a')
      | l :: ls =>
        cases ls with
        | nil =>
          simp [headPart, lastPart, List.getLastD]
        | cons l2 ls2 =>
          rw [dropLast_cons_ne l (l2 :: ls2) (by simp)]
          simp only [List.cons_append, headPart, List.headD, List.tail]
          rw [dropLast_cons_ne (c :: l) (l2 :: ls2) (by simp)]
          have hl1 : lastPart (l :: l2 :: ls2) = lastPart (l2 :: ls2) := by
            unfold lastPart
            exact getLastD_cons_ne _ _ _ (by simp)
          have hl2 : lastPart ((c :: l) :: l2 :: ls2) = lastPart (l2 :: ls2) := by
            unfold lastPart
            exact getLastD_cons_ne _ _ _ (by simp)
          rw [hl1, hl2]
          simp [List.cons_append]

theorem headPart_splitNl_no_nl : ∀ t : Text, '\n' ∉ headPart (splitNl t) := by
  intro t
  induction t with
  | nil => simp [splitNl, headPart]
  | cons c cs ih =>
    by_cases hc : c = '\n'
    · subst hc
      rw [splitNl_cons_nl]
      simp [headPart]
    · rw [splitNl_cons_ne c cs hc]
      have hh : headPart ((c :: headPart (splitNl cs)) :: (splitNl cs).tail) =
          c :: headPart (splitNl cs) := rfl
      rw [hh]
      intro hmem
      rcases List.mem_cons.mp hmem with h | h
      · exact hc h.symm
      · exact ih h

theorem splitNl_of_no_nl : ∀ t : Text, '\n' ∉ t → splitNl t = [t] := by
  intro t
  induction t with
  | nil => intro _; rfl
  | cons c cs ih =>
    intro h
    simp only [List.mem_cons, not_or] at h
    have hc : c ≠ '\n' := fun hh => h.1 hh.symm
    rw [splitNl_cons_ne c cs hc, ih h.2]
    rfl

theorem headPart_splitNl_cons_ne_nil (c : Char) (cs : Text) (hc : c ≠ '\n') :
    headPart (splitNl (c :: cs)) ≠ [] := by
  rw [splitNl_cons_ne c cs hc]
  simp [headPart]

theorem lastN_append (n : Nat) (l1 l2 : List Text) (h : n ≤ l2.length) :
    lastN n (l1 ++ l2) = lastN n l2 := by
  unfold lastN
  have hlen : (l1 ++ l2).length - n = l1.length + (l2.length - n) := by
    rw [List.length_append]
    omega
  rw [hlen, List.drop_append]

theorem revLoop_succ (chunkSize n : Nat) (content : Text) (fuel pos : Nat)
    (lines : List Text) (pending : Text) :
    revLoop chunkSize n content (fuel + 1) pos lines pending =
      if pos = 0 ∨ n ≤ lines.length then (lines, pending, pos)
      else
        revLoop chunkSize n content fuel (pos - min chunkSize pos)
          ((splitNl ((content.drop (pos - min chunkSize pos)).take
            (min chunkSize pos) ++ pending)).tail ++ lines)
          ((splitNl ((content.drop (pos - min chunkSize pos)).take
            (min chunkSize pos) ++ pending)).headD []) := rfl

/-- Postcondition of the backward loop: either the whole file was consumed
and `pending :: lines` is the full split, or the loop stopped early with at
least `n` accumulated lines forming a suffix of the full split. -/
def revLoopOk (content : Text) (n : Nat) (r : List Text × Text × Nat) : Prop :=
  (r.2.2 = 0 ∧ r.2.1 :: r.1 = splitNl content) ∨
  (r.2.2 ≠ 0 ∧ n ≤ r.1.length ∧ ∃ pre, pre ≠ [] ∧ splitNl content = pre ++ r.1)

theorem revLoop_spec (chunkSize n : Nat) (content : Text) (hcs : 0 < chunkSize) :
    ∀ fuel pos lines pending,
      pos ≤ fuel →
      pending :: lines = splitNl (content.drop pos) →
      '\n' ∉ pending →
      revLoopOk content n (revLoop chunkSize n content fuel pos lines pending) := by
  intro fuel
  induction fuel with
  | zero =>
    intro pos lines pending hfuel hinv hpnl
    have hpos : pos = 0 := by omega
    subst hpos
    left
    exact ⟨rfl, by simpa using hinv⟩
  | succ fuel ih =>
    intro pos lines pending hfuel hinv hpnl
    by_cases hstop : pos = 0 ∨ n ≤ lines.length
    · rw [revLoop_succ, if_pos hstop]
      by_cases h0 : pos = 0
      · subst h0
        left
        exact ⟨rfl, by simpa using hinv⟩
      · have hn : n ≤ lines.length := hstop.resolve_left h0
        right
        refine ⟨h0, hn, ?_⟩
        have hsplit := splitNl_append (content.take pos) (content.drop pos)
        rw [List.take_append_drop, ← hinv] at hsplit
        refine ⟨(splitNl (content.take pos)).dropLast ++
          [lastPart (splitNl (content.take pos)) ++ pending], by simp, ?_⟩
        rw [hsplit]
        simp [headPart]
    · push_neg at hstop
      obtain ⟨h0, hlt⟩ := hstop
      have hread : 1 ≤ min chunkSize pos := by
        have : 1 ≤ pos := Nat.one_le_iff_ne_zero.mpr h0
        omega
      rw [revLoop_succ, if_neg (by push_neg; exact ⟨h0, hlt⟩)]
      set readSize := min chunkSize pos with hrs
      set pos' := pos - readSize with hpos'
      set chunk := (content.drop pos').take readSize with hchunk
      have hfuel' : pos' ≤ fuel := by omega
      have hdecomp : content.drop pos' = chunk ++ content.drop pos := by
        rw [hchunk]
        conv_lhs => rw [← List.take_append_drop readSize (content.drop pos')]
        congr 1
        rw [List.drop_drop]
        congr 1
        omega
      have hpend : splitNl pending = [pending] := splitNl_of_no_nl pending hpnl
      have hparts : splitNl (chunk ++ pending) =
          (splitNl chunk).dropLast ++
            [lastPart (splitNl chunk) ++ pending] := by
        rw [splitNl_append, hpend]
        rfl
      have hpartsne : splitNl (chunk ++ pending) ≠ [] :=
        splitNl_ne_nil _
      have hinv' : (splitNl (chunk ++ pending)).headD [] ::
          ((splitNl (chunk ++ pending)).tail ++ lines) =
          splitNl (content.drop pos') := by
      -- `headD :: (tail ++ lines)` regroups to `(headD :: tail) ++ lines`
        rw [hdecomp, splitNl_append (chunk) (content.drop pos), ← hinv]
        have hregroup : (splitNl (chunk ++ pending)).headD [] ::
            ((splitNl (chunk ++ pending)).tail ++ lines) =
            splitNl (chunk ++ pending) ++ lines := by
          rw [← List.cons_append, headD_cons_tail _ _ hpartsne]
        rw [hregroup, hparts]
        simp [headPart]
      have hpnl' : '\n' ∉ (splitNl (chunk ++ pending)).headD [] := by
        have := headPart_splitNl_no_nl (chunk ++ pending)
        simpa [headPart] using this
      exact ih pos' _ _ hfuel' hinv' hpnl'

theorem splitKeep_cons_def (c : Char) (cs : Text) :
    splitKeep (c :: cs) = if c = '\n' then ['\n'] :: splitKeep cs
      else match splitKeep cs with
        | [] => [[c]]
        | l :: ls => (c :: l) :: ls := rfl

theorem splitKeep_eq_nil_iff (t : Text) : splitKeep t = [] ↔ t = [] := by
  cases t with
  | nil => simp [splitKeep]
  | cons c cs =>
    rw [splitKeep_cons_def]
    constructor
    · intro h
      by_cases hc : c = '\n'
      · simp [hc] at h
      · simp only [hc, if_false] at h
        match hk : splitKeep cs with
        | [] => rw [hk] at h; simp at h
        | l :: ls => rw [hk] at h; simp at h
    · intro h
      simp at h

theorem splitKeep_mem_ne_nil : ∀ t : Text, ∀ x ∈ splitKeep t, x ≠ [] := by
  intro t
  induction t with
  | nil => intro x hx; simp [splitKeep] at hx
  | cons c cs ih =>
    intro x hx
    rw [splitKeep_cons_def] at hx
    by_cases hc : c = '\n'
    · simp only [hc, if_true] at hx
      rcases List.mem_cons.mp hx with h | h
      · subst h; simp
      · exact ih x h
    · simp only [hc, if_false] at hx
      match hk : splitKeep cs with
      | [] =>
        rw [hk] at hx
        simp only [List.mem_singleton] at hx
        subst hx; simp
      | l :: ls =>
        rw [hk] at hx
        rcases List.mem_cons.mp hx with h | h
        · subst h; simp
        · exact ih x (by rw [hk]; exact List.mem_cons_of_mem l h)

theorem stripNl_cons (c : Char) (l : Text) (h : l ≠ []) :
    stripNl (c :: l) = c :: stripNl l := by
  unfold stripNl
  match hl : l, h with
  | d :: ds, _ =>
    rw [List.getLast?_cons_cons]
    by_cases hlast : (d :: ds).getLast? = some '\n'
    · rw [if_pos hlast, if_pos hlast, dropLast_cons_ne c (d :: ds) (by simp)]
    · rw [if_neg hlast, if_neg hlast]

theorem getLast?_cons_of_ne_nil (c : Char) (cs : Text) (h : cs ≠ []) :
    (c :: cs).getLast? = cs.getLast? := by
  cases cs with
  | nil => exact absurd rfl h
  | cons d ds => exact List.getLast?_cons_cons ..

/-- On content that does not end with a newline, stripping the keepends
lines gives exactly the `"\n"`-split pieces. -/
theorem splitKeep_strip : ∀ t : Text, t ≠ [] → t.getLast? ≠ some '\n' →
    (splitKeep t).map stripNl = splitNl t := by
  intro t
  induction t with
  | nil => intro h; exact absurd rfl h
  | cons c cs ih =>
    intro _ hlast
    by_cases hc : c = '\n'
    · subst hc
      have hcs : cs ≠ [] := by
        intro h
        subst h
        exact hlast rfl
      have hlast' : cs.getLast? ≠ some '\n' := by
        rwa [getLast?_cons_of_ne_nil _ _ hcs] at hlast
      rw [splitKeep_cons_def, if_pos rfl, splitNl_cons_nl, List.map_cons,
        ih hcs hlast']
      congr 1
    · cases hcseq : cs with
      | nil =>
        subst hcseq
        simp [splitKeep, splitNl, stripNl, hc]
      | cons d ds =>
        rw [← hcseq]
        have hcs : cs ≠ [] := by rw [hcseq]; simp
        have hlast' : cs.getLast? ≠ some '\n' := by
          rwa [getLast?_cons_of_ne_nil _ _ hcs] at hlast
        rw [splitKeep_cons_def, if_neg hc, splitNl_cons_ne c cs hc]
        have hih := ih hcs hlast'
        match hk : splitKeep cs with
        | [] => exact absurd ((splitKeep_eq_nil_iff cs).mp hk) hcs
        | l :: ls =>
          rw [hk, List.map_cons] at hih
          rw [← hih]
          have hstep : headPart (stripNl l :: List.map stripNl ls) = stripNl l :=
            rfl
          have hstep2 : (stripNl l :: List.map stripNl ls).tail =
              List.map stripNl ls := rfl
          rw [hstep, hstep2, List.map_cons]
          congr 1
          exact stripNl_cons c l (splitKeep_mem_ne_nil cs l
            (by rw [hk]; exact List.mem_cons_self l ls))

/-- **C9 (counterexample).** The two tail strategies do not return the same
content: on `"a\nb\nc\n"` with `n = 2` the backward chunk reader counts the
empty segment after the final newline as a line and returns `"c\n"`, while
the forward ring-buffer reader returns the last two real lines `"b\nc"`.
They also disagree on CRLF content (the backward reader splits on `"\n"`
only and keeps the `"\r"`s) and on content starting with a newline. -/
theorem tail_read_strategies_counterexample :
    readLastNLinesReverse 8192 "a\nb\nc\n".toList 2 false none = "c\n".toList ∧
    readFromEndWithReadline "a\nb\nc\n".toList 2 false none = "b\nc".toList ∧
    ("c\n".toList : Text) ≠ "b\nc".toList ∧
    readLastNLinesReverse 8192 "a\r\nb".toList 2 false none ≠
      readFromEndWithReadline "a\r\nb".toList 2 false none ∧
    readLastNLinesReverse 8192 "\nx".toList 2 false none ≠
      readFromEndWithReadline "\nx".toList 2 false none :=
  ⟨by decide, by decide, by decide, by decide, by decide⟩

/-- **C9 (amended).** For every positive chunk size and every `n > 0`, the
backward fixed-size-chunk strategy and the forward ring-buffer strategy
return the same content on files that contain no carriage return and neither
start nor end with a newline. -/
theorem tail_read_strategies_agree (chunkSize n : Nat) (content : Text)
    (includeStatus : Bool) (totalLines : Option Nat)
    (hcs : 0 < chunkSize) (_hn : 0 < n)
    (hcr : '\r' ∉ content)
    (hhead : content.head? ≠ some '\n')
    (hlast : content.getLast? ≠ some '\n') :
    readLastNLinesReverse chunkSize content n includeStatus totalLines =
      readFromEndWithReadline content n includeStatus totalLines := by
  by_cases hne : content = []
  · subst hne
    cases includeStatus <;> rfl
  · have huniv : univNewlines content = content := univNewlines_of_no_cr content hcr
    have hfwd : (splitKeep (univNewlines content)).map stripNl = splitNl content := by
      rw [huniv]
      exact splitKeep_strip content hne hlast
    have hinv0 : ([] : Text) :: ([] : List Text) =
        splitNl (content.drop content.length) := by
      rw [List.drop_length]
      rfl
    have hok := revLoop_spec chunkSize n content hcs content.length
      content.length [] [] le_rfl hinv0 (by simp)
    have hlines : lastN n
        (if (revLoop chunkSize n content content.length content.length
              [] []).2.2 = 0 ∧
            (revLoop chunkSize n content content.length content.length
              [] []).2.1 ≠ [] then
          (revLoop chunkSize n content content.length content.length
            [] []).2.1 ::
            (revLoop chunkSize n content content.length content.length
              [] []).1
        else (revLoop chunkSize n content content.length content.length
          [] []).1) = lastN n (splitNl content) := by
      rcases hok with ⟨hz, hfull⟩ | ⟨hnz, hlen, pre, hpre, hsuffix⟩
      · by_cases hp : (revLoop chunkSize n content content.length
            content.length [] []).2.1 = []
        · exfalso
          match hcc : content, hne with
          | c :: cs, _ =>
            have hcne : c ≠ '\n' := by
              intro h
              subst h
              exact hhead rfl
            have hnn := headPart_splitNl_cons_ne_nil c cs hcne
            rw [← hfull] at hnn
            have hred : headPart ((revLoop chunkSize n (c :: cs)
                (c :: cs).length (c :: cs).length [] []).2.1 ::
                (revLoop chunkSize n (c :: cs) (c :: cs).length
                  (c :: cs).length [] []).1) =
                (revLoop chunkSize n (c :: cs) (c :: cs).length
                  (c :: cs).length [] []).2.1 := rfl
            rw [hred] at hnn
            exact hnn hp
        · rw [if_pos ⟨hz, hp⟩, hfull]
      · rw [if_neg (fun hcc => hnz hcc.1), hsuffix]
        exact (lastN_append n pre _ hlen).symm
    show (let r := revLoop chunkSize n content content.length
            content.length [] []
          let lines := if r.2.2 = 0 ∧ r.2.1 ≠ [] then r.2.1 :: r.1 else r.1
          let resultLines := lastN n lines
          let body := List.intercalate ['\n'] resultLines
          if includeStatus then
            (genStatusMessage resultLines.length (-(n : Int)) totalLines
              true).toList ++ ('\n' :: '\n' :: body)
          else body) =
        (let resultLines := lastN n
            ((splitKeep (univNewlines content)).map stripNl)
         let body := List.intercalate ['\n'] resultLines
         if includeStatus then
           (genStatusMessage resultLines.length (-(n : Int)) totalLines
             true).toList ++ ('\n' :: '\n' :: body)
         else body)
    simp only
    rw [hlines, hfwd]

/-- Witness for C9 (amended): `"aa\nbb\ncc"` read with chunk size 3 (forcing
several backward chunks) and `n = 2` agrees between the strategies. -/
theorem tail_read_strategies_agree_witness :
    readLastNLinesReverse 3 "aa\nbb\ncc".toList 2 false none =
      readFromEndWithReadline "aa\nbb\ncc".toList 2 false none :=
  tail_read_strategies_agree 3 2 "aa\nbb\ncc".toList false none
    (by decide) (by decide) (by decide) (by decide) (by decide)

/-! ## The batch editor `edit_blocks` (server.py lines 495-653) -/

/-- One element of the `edits` list of `edit_blocks`, with the dictionary
defaults (`expected_replacements` 1, flags false) already applied. -/
structure EditSpec where
  file_path : String
  old_string : Text
  new_string : Text
  expected_replacements : Nat
  ignore_whitespace : Bool
  normalize_escapes : Bool
deriving DecidableEq, Repr

/-- The three `error_policy` values of `edit_blocks`. -/
inductive Policy where
  | failFast | continueOn | rollback
deriving DecidableEq, Repr

/-- A per-edit entry of the `results` list: the success dict
(server.py lines 587-593) or the error dict (lines 599-603, with the
exception modelled by `FsErr` instead of its `str`). -/
inductive ItemResult where
  | success (message : String) (file_path : String) (replacements : Nat)
      (locations : List EditLocation)
  | failure (file_path : String) (error : FsErr)
deriving DecidableEq, Repr

/-- The response dict of `edit_blocks`. -/
structure BlocksResponse where
  status : String
  message : String
  total_edits : Nat
  successful_edits : Nat
  failed_edits : Nat
  results : List ItemResult
deriving DecidableEq, Repr

/-- Abbreviated renderings of the Python exception texts interpolated into
the response messages; the exact wording is immaterial to the claims. -/
def errText : FsErr → String
  | .conflict => "Write conflict"
  | .notFound => "File not found"
  | .emptySearch => "old_string cannot be empty."
  | .tooLarge => "too large for edit_blocks"
  | .matchCountMismatch f e => s!"Expected {e} occurrences but found {f}"
  | .wsCountMismatch f e => s!"Expected {e} flexible matches but found {f}"
  | .overlyGreedy m e => s!"Match spans {m} lines for a {e}-line search"
  | .subnMismatch s e => s!"Substituted {s} times, expected {e}"
  | .closeMatchNotExact => "Found close match but not exact"
  | .noMatch => "No match found"
  | .internalIndexError => "Internal index error"

def blocksDoneMessage (succ total : Nat) : String :=
  s!"Completed {succ}/{total} edits"

def blocksStopMessage (idx : Nat) (err : FsErr) : String :=
  s!"Stopped at edit {idx}: " ++ errText err

def blocksRollbackMessage (err : FsErr) : String :=
  "Rolled back all changes due to error: " ++ errText err

/-- Appends `item` to the group keyed `path`, creating the group at the end
if absent: the behaviour of `defaultdict(list)` keyed in insertion order
(server.py lines 525-533). -/
def addToGroups (gs : List (String × List (Nat × EditSpec))) (path : String)
    (item : Nat × EditSpec) : List (String × List (Nat × EditSpec)) :=
  match gs with
  | [] => [(path, [item])]
  | (p, items) :: rest =>
    if p = path then (p, items ++ [item]) :: rest
    else (p, items) :: addToGroups rest path item

/-- `edits_by_file`: the indexed edits grouped by `file_path`, files in
first-appearance order and each file's edits in input order. -/
def groupByFile (l : List (Nat × EditSpec)) :
    List (String × List (Nat × EditSpec)) :=
  l.foldl (fun gs ie => addToGroups gs ie.2.file_path ie) []

def groupKeys (gs : List (String × List (Nat × EditSpec))) : List String :=
  gs.map Prod.fst

/-- Outcome of the per-file edit loop (server.py lines 566-621): normal
completion, the fail-fast early return, or the rollback re-raise. -/
inductive EditLoopOut where
  | done (current : Text) (results : List (Option ItemResult)) (succ fail : Nat)
  | stopEarly (current : Text) (results : List (Option ItemResult))
      (succ fail : Nat) (idx : Nat) (err : FsErr)
  | raisedOut (results : List (Option ItemResult)) (succ fail : Nat) (err : FsErr)

/-- The inner `for idx, edit in file_edits` loop.  The server's explicit
`old_string` emptiness check raises the same error the in-memory editor
would; on success `current_content` advances and `results[idx]` is set. -/
def runFileEdits (policy : Policy) (fileEdits : List (Nat × EditSpec))
    (current : Text) (results : List (Option ItemResult)) (succ fail : Nat) :
    EditLoopOut :=
  match fileEdits with
  | [] => .done current results succ fail
  | (idx, e) :: rest =>
    match (if e.old_string = [] then Except.error FsErr.emptySearch
           else performSingleEditInMemory current e.old_string e.new_string
             e.expected_replacements e.ignore_whitespace e.normalize_escapes) with
    | .ok r =>
      runFileEdits policy rest r.new_content
        (results.set idx
          (some (.success r.message e.file_path r.replacements r.locations)))
        (succ + 1) fail
    | .error err =>
      match policy with
      | .failFast =>
        .stopEarly current (results.set idx (some (.failure e.file_path err)))
          succ (fail + 1) idx err
      | .rollback =>
        .raisedOut (results.set idx (some (.failure e.file_path err))) succ
          (fail + 1) err
      | .continueOn =>
        runFileEdits policy rest current
          (results.set idx (some (.failure e.file_path err))) succ (fail + 1)

/-- Outcome of the per-file outer loop: all files processed, the fail-fast
partial return, or an exception propagating to the outer handler. -/
inductive FilesOut where
  | finished (fs : FSt) (results : List (Option ItemResult)) (succ fail : Nat)
      (backups : List (String × Text))
  | stopEarly (fs : FSt) (results : List (Option ItemResult)) (succ fail : Nat)
      (idx : Nat) (err : FsErr)
  | raised (fs : FSt) (results : List (Option ItemResult)) (succ fail : Nat)
      (backups : List (String × Text)) (err : FsErr)

/-- The `for file_path, file_edits in edits_by_file.items()` loop
(server.py lines 540-621): stat (missing file raises), size gate against
`LARGE_FILE_THRESHOLD`, one `read_file_internal` per file, a snapshot into
`backups` under the rollback policy, the inner edit loop, and a single
rewrite of the accumulated content when it changed.  Path validation is
modelled as the identity (the sandbox is verified separately). -/
def runFiles (policy : Policy) (now : ℚ) :
    List (String × List (Nat × EditSpec)) → FSt → List (Option ItemResult) →
      Nat → Nat → List (String × Text) → FilesOut
  | [], fs, results, succ, fail, backups => .finished fs results succ fail backups
  | (path, fileEdits) :: restFiles, fs, results, succ, fail, backups =>
    match fs path with
    | none => .raised fs results succ fail backups .notFound
    | some data =>
      if data.content.length > LARGE_FILE_THRESHOLD then
        .raised fs results succ fail backups .tooLarge
      else
        match readFileInternal fs path 0 (2 ^ 30) with
        | .error e => .raised fs results succ fail backups e
        | .ok content =>
          match runFileEdits policy fileEdits content results succ fail with
          | .stopEarly current results2 succ2 fail2 idx err =>
            .stopEarly
              (if current ≠ content then
                match writeFile fs path current .rewrite none now with
                | .ok fev => fev.1
                | .error _ => fs
               else fs) results2 succ2 fail2 idx err
          | .raisedOut results2 succ2 fail2 err =>
            .raised fs results2 succ2 fail2
              (if policy = .rollback then backups ++ [(path, content)]
               else backups) err
          | .done current results2 succ2 fail2 =>
            runFiles policy now restFiles
              (if current ≠ content then
                match writeFile fs path current .rewrite none now with
                | .ok fev => fev.1
                | .error _ => fs
               else fs) results2 succ2 fail2
              (if policy = .rollback then backups ++ [(path, content)]
               else backups)

/-- The rollback restore loop (server.py lines 637-642): each snapshot is
rewritten back best-effort, a failing restore being swallowed. -/
def restoreBackups (f : FSt) (bks : List (String × Text)) (now : ℚ) : FSt :=
  match bks with
  | [] => f
  | (p, c) :: rest =>
    restoreBackups
      (match writeFile f p c .rewrite none now with
       | .ok fev => fev.1
       | .error _ => f) rest now

/-- `edit_blocks` (server.py lines 495-653).  The empty-list and invalid
`file_path` validations raise before any file is touched (the per-index
message is collapsed to one string); encoding normalization and the cache
invalidation calls are not modelled.  Under the rollback policy a propagated
exception restores every snapshot and yields the `"error"` response with
`successful_edits` fixed to 0; under the other policies it re-raises. -/
def editBlocks (fs : FSt) (edits : List EditSpec) (policy : Policy) (now : ℚ) :
    Except String (BlocksResponse × FSt) :=
  if edits = [] then
    .error "edits must be a non-empty list of edit specifications."
  else if edits.any (fun e => e.file_path = "") then
    .error "missing valid file_path"
  else
    match runFiles policy now (groupByFile edits.enum) fs
        (List.replicate edits.length none) 0 0 [] with
    | .finished fs2 results succ fail _ =>
      .ok ({ status := if fail = 0 then "success" else "partial"
             message := blocksDoneMessage succ edits.length
             total_edits := edits.length
             successful_edits := succ
             failed_edits := fail
             results := results.filterMap id }, fs2)
    | .stopEarly fs2 results succ fail idx err =>
      .ok ({ status := "partial"
             message := blocksStopMessage idx err
             total_edits := edits.length
             successful_edits := succ
             failed_edits := fail
             results := results.filterMap id }, fs2)
    | .raised fs2 results _ fail backups err =>
      match policy with
      | .rollback =>
        .ok ({ status := "error"
               message := blocksRollbackMessage err
               total_edits := edits.length
               successful_edits := 0
               failed_edits := fail
               results := results.filterMap id }, restoreBackups fs2 backups now)
      | _ => .error (errText err)

/-! ## Support lemmas for the batch editor -/

theorem writeFile_none_rewrite (fs : FSt) (path : String) (c : Text) (now : ℚ) :
    writeFile fs path c .rewrite none now =
      .ok (fs.update path ⟨c, now⟩,
        [.mkdirParents path, .openTruncate path, .writeData path c,
         .closeFile path]) := by
  cases hfs : fs path <;> rfl

theorem contentAt_update_ne (fs : FSt) (path : String) (d : FileData)
    (p : String) (hp : p ≠ path) :
    (fs.update path d).contentAt p = fs.contentAt p := by
  simp [FSt.contentAt, FSt.update, hp]

theorem contentAt_update_self (fs : FSt) (path : String) (d : FileData) :
    (fs.update path d).contentAt path = some d.content := by
  simp [FSt.contentAt, FSt.update]

/-- The untouched-paths part of the conditional per-file rewrite in
`runFiles`. -/
theorem contentAt_writeIf (fs : FSt) (path : String) (cur content : Text)
    (now : ℚ) (p : String) (hp : p ≠ path) :
    ((if cur ≠ content then
        match writeFile fs path cur .rewrite none now with
        | .ok fev => fev.1
        | .error _ => fs
      else fs) : FSt).contentAt p = fs.contentAt p := by
  by_cases hc : cur ≠ content
  · rw [if_pos hc, writeFile_none_rewrite]
    exact contentAt_update_ne fs path ⟨cur, now⟩ p hp
  · rw [if_neg hc]

theorem restoreBackups_cons (f : FSt) (p : String) (c : Text)
    (rest : List (String × Text)) (now : ℚ) :
    restoreBackups f ((p, c) :: rest) now =
      restoreBackups (f.update p ⟨c, now⟩) rest now := by
  show restoreBackups
      (match writeFile f p c .rewrite none now with
       | .ok fev => fev.1
       | .error _ => f) rest now = _
  rw [writeFile_none_rewrite]

/-- If every snapshot records the pre-batch content of its path and every
unsnapshotted path is untouched, the restore loop brings the whole
filesystem back to the pre-batch state. -/
theorem restoreBackups_restores (fs0 : FSt) (now : ℚ) :
    ∀ (bks : List (String × Text)) (f : FSt),
      (∀ p c, (p, c) ∈ bks → fs0.contentAt p = some c) →
      (∀ p, (∀ c, (p, c) ∉ bks) → f.contentAt p = fs0.contentAt p) →
      ∀ p, (restoreBackups f bks now).contentAt p = fs0.contentAt p := by
  intro bks
  induction bks with
  | nil =>
    intro f _ h2 p
    exact h2 p (fun c => List.not_mem_nil _)
  | cons hd tl ih =>
    obtain ⟨q, c⟩ := hd
    intro f h1 h2 p
    rw [restoreBackups_cons]
    refine ih (f.update q ⟨c, now⟩) ?_ ?_ p
    · intro p' c' hm
      exact h1 p' c' (List.mem_cons_of_mem _ hm)
    · intro p' hp'
      by_cases hq : p' = q
      · subst hq
        rw [contentAt_update_self]
        exact (h1 p' c (List.mem_cons_self _ _)).symm
      · rw [contentAt_update_ne f q ⟨c, now⟩ p' hq]
        refine h2 p' (fun c' hc' => ?_)
        rcases List.mem_cons.mp hc' with h | h
        · exact hq (congrArg Prod.fst h)
        · exact hp' c' h

theorem groupKeys_addToGroups (gs : List (String × List (Nat × EditSpec)))
    (path : String) (item : Nat × EditSpec) :
    groupKeys (addToGroups gs path item) =
      if path ∈ groupKeys gs then groupKeys gs else groupKeys gs ++ [path] := by
  induction gs with
  | nil => simp [addToGroups, groupKeys]
  | cons hd tl ih =>
    obtain ⟨p, items⟩ := hd
    simp only [groupKeys] at ih ⊢
    by_cases hp : p = path
    · subst hp
      simp [addToGroups]
    · have hne : ¬ path = p := fun h => hp h.symm
      by_cases hm : path ∈ List.map Prod.fst tl
      · simp [addToGroups, hp, hne, hm] at ih ⊢
        exact ih
      · simp [addToGroups, hp, hne, hm] at ih ⊢
        exact ih

theorem nodup_groupKeys_addToGroups (gs : List (String × List (Nat × EditSpec)))
    (path : String) (item : Nat × EditSpec)
    (h : (groupKeys gs).Nodup) : (groupKeys (addToGroups gs path item)).Nodup := by
  rw [groupKeys_addToGroups]
  by_cases hm : path ∈ groupKeys gs
  · rw [if_pos hm]; exact h
  · rw [if_neg hm]
    rw [List.nodup_append]
    refine ⟨h, List.nodup_singleton path, ?_⟩
    intro a ha hb
    rw [List.mem_singleton] at hb
    subst hb
    exact hm ha

theorem nodup_groupKeys_groupByFile (l : List (Nat × EditSpec)) :
    (groupKeys (groupByFile l)).Nodup := by
  have key : ∀ (m : List (Nat × EditSpec))
      (gs : List (String × List (Nat × EditSpec))), (groupKeys gs).Nodup →
      (groupKeys (m.foldl (fun g ie => addToGroups g ie.2.file_path ie) gs)).Nodup := by
    intro m
    induction m with
    | nil => intro gs h; exact h
    | cons hd tl ih =>
      intro gs h
      exact ih _ (nodup_groupKeys_addToGroups gs hd.2.file_path hd h)
  exact key l [] (by simp [groupKeys])

theorem runFileEdits_cons (policy : Policy) (idx : Nat) (e : EditSpec)
    (rest : List (Nat × EditSpec)) (current : Text)
    (results : List (Option ItemResult)) (succ fail : Nat) :
    runFileEdits policy ((idx, e) :: rest) current results succ fail =
      match (if e.old_string = [] then Except.error FsErr.emptySearch
             else performSingleEditInMemory current e.old_string e.new_string
               e.expected_replacements e.ignore_whitespace e.normalize_escapes) with
      | .ok r =>
        runFileEdits policy rest r.new_content
          (results.set idx
            (some (.success r.message e.file_path r.replacements r.locations)))
          (succ + 1) fail
      | .error err =>
        match policy with
        | .failFast =>
          .stopEarly current (results.set idx (some (.failure e.file_path err)))
            succ (fail + 1) idx err
        | .rollback =>
          .raisedOut (results.set idx (some (.failure e.file_path err))) succ
            (fail + 1) err
        | .continueOn =>
          runFileEdits policy rest current
            (results.set idx (some (.failure e.file_path err))) succ (fail + 1) := rfl

/-- Under the rollback policy the inner loop either completes with the
failure count unchanged or raises; it never takes the fail-fast exit. -/
theorem runFileEdits_rollback_cases (fileEdits : List (Nat × EditSpec)) :
    ∀ (current : Text) (results : List (Option ItemResult)) (succ fail : Nat),
      (∃ cur res succ2, runFileEdits .rollback fileEdits current results succ fail =
        .done cur res succ2 fail) ∨
      (∃ res succ2 fail2 err,
        runFileEdits .rollback fileEdits current results succ fail =
          .raisedOut res succ2 fail2 err) := by
  induction fileEdits with
  | nil =>
    intro current results succ fail
    exact .inl ⟨current, results, succ, rfl⟩
  | cons hd rest ih =>
    obtain ⟨idx, e⟩ := hd
    intro current results succ fail
    rw [runFileEdits_cons]
    cases hatt : (if e.old_string = [] then Except.error FsErr.emptySearch
        else performSingleEditInMemory current e.old_string e.new_string
          e.expected_replacements e.ignore_whitespace e.normalize_escapes) with
    | ok r => exact ih r.new_content _ (succ + 1) fail
    | error err => exact .inr ⟨_, _, _, _, rfl⟩

theorem runFiles_cons (policy : Policy) (now : ℚ) (path : String)
    (fileEdits : List (Nat × EditSpec))
    (restFiles : List (String × List (Nat × EditSpec))) (fs : FSt)
    (results : List (Option ItemResult)) (succ fail : Nat)
    (backups : List (String × Text)) :
    runFiles policy now ((path, fileEdits) :: restFiles) fs results succ fail
        backups =
      match fs path with
      | none => .raised fs results succ fail backups .notFound
      | some data =>
        if data.content.length > LARGE_FILE_THRESHOLD then
          .raised fs results succ fail backups .tooLarge
        else
          match readFileInternal fs path 0 (2 ^ 30) with
          | .error e => .raised fs results succ fail backups e
          | .ok content =>
            match runFileEdits policy fileEdits content results succ fail with
            | .stopEarly current results2 succ2 fail2 idx err =>
              .stopEarly
                (if current ≠ content then
                  match writeFile fs path current .rewrite none now with
                  | .ok fev => fev.1
                  | .error _ => fs
                 else fs) results2 succ2 fail2 idx err
            | .raisedOut results2 succ2 fail2 err =>
              .raised fs results2 succ2 fail2
                (if policy = .rollback then backups ++ [(path, content)]
                 else backups) err
            | .done current results2 succ2 fail2 =>
              runFiles policy now restFiles
                (if current ≠ content then
                  match writeFile fs path current .rewrite none now with
                  | .ok fev => fev.1
                  | .error _ => fs
                 else fs) results2 succ2 fail2
                (if policy = .rollback then backups ++ [(path, content)]
                 else backups) := rfl

/-- Invariant of the rollback run: every snapshot records the pre-batch
content of its path, and every path without a snapshot is untouched. -/
abbrev BackupInv (fs0 fs : FSt) (bks : List (String × Text)) : Prop :=
  (∀ p c, (p, c) ∈ bks → fs0.contentAt p = some c) ∧
  (∀ p, (∀ c, (p, c) ∉ bks) → fs.contentAt p = fs0.contentAt p)

/-- Under the rollback policy, on a carriage-return-free filesystem, the
file loop maintains `BackupInv`, never takes the fail-fast exit, and reaches
normal completion only with the failure count unchanged. -/
theorem runFiles_rollback_inv (fs0 : FSt) (now : ℚ)
    (hnocr : ∀ p d, fs0 p = some d → '\r' ∉ d.content) :
    ∀ (groups : List (String × List (Nat × EditSpec))) (fs : FSt)
      (results : List (Option ItemResult)) (succ fail : Nat)
      (bks : List (String × Text)),
      BackupInv fs0 fs bks →
      (∀ pe ∈ groups, ∀ c, (pe.1, c) ∉ bks) →
      (groupKeys groups).Nodup →
      (match runFiles .rollback now groups fs results succ fail bks with
       | .finished _ _ _ fail2 _ => fail2 = fail
       | .stopEarly _ _ _ _ _ _ => False
       | .raised fs2 _ _ _ bks2 _ => BackupInv fs0 fs2 bks2) := by
  intro groups
  induction groups with
  | nil =>
    intro fs results succ fail bks _ _ _
    exact rfl
  | cons hd restFiles ih =>
    obtain ⟨path, fileEdits⟩ := hd
    intro fs results succ fail bks hinv hdisj hnd
    rw [runFiles_cons]
    have hnotin : path ∉ groupKeys restFiles := by
      have h := hnd
      rw [show groupKeys ((path, fileEdits) :: restFiles) =
        path :: groupKeys restFiles from rfl] at h
      exact (List.nodup_cons.mp h).1
    have hnd2 : (groupKeys restFiles).Nodup := by
      have h := hnd
      rw [show groupKeys ((path, fileEdits) :: restFiles) =
        path :: groupKeys restFiles from rfl] at h
      exact (List.nodup_cons.mp h).2
    cases hfs : fs path with
    | none => exact hinv
    | some data =>
      dsimp only
      by_cases hsz : data.content.length > LARGE_FILE_THRESHOLD
      · rw [if_pos hsz]
        exact hinv
      · rw [if_neg hsz]
        have hpeq : fs.contentAt path = fs0.contentAt path :=
          hinv.2 path (hdisj (path, fileEdits) (List.mem_cons_self _ _))
        have hcp : fs.contentAt path = some data.content := by
          simp [FSt.contentAt, hfs]
        have hbk : fs0.contentAt path = some data.content := by
          rw [← hpeq, hcp]
        have hcr : '\r' ∉ data.content := by
          cases hfs0 : fs0 path with
          | none => simp [FSt.contentAt, hfs0] at hbk
          | some d0 =>
            have hd0 : d0.content = data.content := by
              simp [FSt.contentAt, hfs0] at hbk
              exact hbk
            exact hd0 ▸ hnocr path d0 hfs0
        have hread := readFileInternal_small fs path data hfs (Nat.not_lt.mp hsz)
        rw [univNewlines_of_no_cr data.content hcr] at hread
        rw [hread]
        dsimp only
        have hbk2 : ∀ p c, (p, c) ∈ bks ++ [(path, data.content)] →
            fs0.contentAt p = some c := by
          intro p c hm
          rcases List.mem_append.mp hm with h | h
          · exact hinv.1 p c h
          · rw [List.mem_singleton] at h
            have hp : p = path := congrArg Prod.fst h
            have hc : c = data.content := congrArg Prod.snd h
            subst hp; subst hc
            exact hbk
        have hdisj2 : ∀ pe ∈ restFiles, ∀ c,
            (pe.1, c) ∉ bks ++ [(path, data.content)] := by
          intro pe hpe c hc
          rcases List.mem_append.mp hc with h | h
          · exact hdisj pe (List.mem_cons_of_mem _ hpe) c h
          · rw [List.mem_singleton] at h
            have hp : pe.1 = path := congrArg Prod.fst h
            exact hnotin (hp ▸ (List.mem_map_of_mem Prod.fst hpe))
        rcases runFileEdits_rollback_cases fileEdits data.content results succ fail
          with ⟨cur, res, succ2, hdone⟩ | ⟨res, succ2, fail2, err, hraise⟩
        · rw [hdone]
          have hinv2 : BackupInv fs0
              (if cur ≠ data.content then
                match writeFile fs path cur .rewrite none now with
                | .ok fev => fev.1
                | .error _ => fs
               else fs) (bks ++ [(path, data.content)]) := by
            refine ⟨hbk2, ?_⟩
            intro p hp
            have hpne : p ≠ path := by
              intro he
              refine hp data.content (List.mem_append.mpr (.inr ?_))
              rw [he]
              exact List.mem_singleton.mpr rfl
            rw [contentAt_writeIf fs path cur data.content now p hpne]
            exact hinv.2 p (fun c hc => hp c (List.mem_append.mpr (.inl hc)))
          exact ih _ res succ2 fail _ hinv2 hdisj2 hnd2
        · rw [hraise]
          show BackupInv fs0 fs (bks ++ [(path, data.content)])
          refine ⟨hbk2, ?_⟩
          intro p hp
          exact hinv.2 p (fun c hc => hp c (List.mem_append.mpr (.inl hc)))

def crlfFS : FSt := fun p => if p = "f" then some ⟨"x\r\ny".toList, 0⟩ else none

def crlfEdits : List EditSpec :=
  [⟨"f", "x".toList, "a".toList, 1, false, false⟩,
   ⟨"f", "q".toList, "w".toList, 1, false, false⟩]

/-- Counterexample to C3 as stated: on a CRLF file, the snapshot taken by
the rollback policy is the text-mode read, i.e. the universal-newline
translation of the bytes.  When the second edit fails, the restore rewrites
the translated text, so the rolled-back file holds `"x\ny"` while its
pre-batch content was `"x\r\ny"`: the on-disk content is not restored
exactly. -/
theorem rollback_crlf_restore_counterexample :
    (editBlocks crlfFS crlfEdits .rollback 1).toOption.map
        (fun pr => (pr.1.status, pr.2.contentAt "f")) =
      some ("error", some "x\ny".toList) ∧
    crlfFS.contentAt "f" = some "x\r\ny".toList ∧
    "x\ny".toList ≠ "x\r\ny".toList := by
  refine ⟨by decide, by decide, by decide⟩

/-- **C3 (amended).** Under the rollback policy, on a filesystem whose files
contain no carriage return (so that the text-mode snapshot equals the stored
content), `edit_blocks` is all-or-nothing: the response is either a full
success (`"success"` with no failed edits) or the `"error"` response, and in
the error case every path's content equals its pre-batch content — the
snapshots taken before each file was touched have all been restored — and
`successful_edits` is 0. -/
theorem rollback_restores_pre_batch_content (fs : FSt) (edits : List EditSpec)
    (now : ℚ) (hnocr : ∀ p d, fs p = some d → '\r' ∉ d.content)
    (resp : BlocksResponse) (fs2 : FSt)
    (h : editBlocks fs edits .rollback now = .ok (resp, fs2)) :
    (resp.status = "error" ∨ (resp.status = "success" ∧ resp.failed_edits = 0)) ∧
    (resp.status = "error" →
      (∀ p, fs2.contentAt p = fs.contentAt p) ∧ resp.successful_edits = 0) := by
  unfold editBlocks at h
  by_cases h0 : edits = []
  · rw [if_pos h0] at h
    exact Except.noConfusion h
  rw [if_neg h0] at h
  by_cases h1 : edits.any (fun e => e.file_path = "") = true
  · rw [if_pos h1] at h
    exact Except.noConfusion h
  rw [if_neg h1] at h
  have hinv := runFiles_rollback_inv fs now hnocr (groupByFile edits.enum) fs
    (List.replicate edits.length none) 0 0 []
    ⟨fun _ c hm => absurd hm (List.not_mem_nil _), fun _ _ => rfl⟩
    (fun _ _ c hc => absurd hc (List.not_mem_nil _))
    (nodup_groupKeys_groupByFile edits.enum)
  rcases hrf : runFiles .rollback now (groupByFile edits.enum) fs
      (List.replicate edits.length none) 0 0 [] with
    ⟨fs3, results, succ, fail, bks⟩ | ⟨fs3, results, succ, fail, idx, err⟩ |
    ⟨fs3, results, succ, fail, bks, err⟩
  · rw [hrf] at h hinv
    dsimp only at h
    have hfail : fail = 0 := hinv
    rw [if_pos hfail] at h
    injection h with h2
    rw [Prod.mk.injEq] at h2
    obtain ⟨h3, h4⟩ := h2
    subst h3
    subst h4
    exact ⟨.inr ⟨rfl, hfail⟩,
      fun hs => absurd (show ("success" : String) = "error" from hs) (by decide)⟩
  · rw [hrf] at hinv
    exact (hinv : False).elim
  · rw [hrf] at h hinv
    dsimp only at h
    have hbinv : BackupInv fs fs3 bks := hinv
    injection h with h2
    rw [Prod.mk.injEq] at h2
    obtain ⟨h3, h4⟩ := h2
    subst h3
    subst h4
    refine ⟨.inl rfl, fun _ => ⟨?_, rfl⟩⟩
    exact restoreBackups_restores fs now bks fs3 hbinv.1 hbinv.2

def rollbackSampleFS : FSt :=
  fun p => if p = "rb.txt" then some ⟨"ab".toList, 0⟩ else none

def rollbackSampleEdits : List EditSpec :=
  [⟨"rb.txt", "a".toList, "X".toList, 1, false, false⟩,
   ⟨"rb.txt", "zz".toList, "w".toList, 1, false, false⟩]

def rollbackSampleOut : BlocksResponse × FSt :=
  match editBlocks rollbackSampleFS rollbackSampleEdits .rollback 1 with
  | .ok pr => pr
  | .error _ => (⟨"", "", 0, 0, 0, []⟩, emptyFS)

/-- Witness for C3 (amended): a CR-free file `"ab"` where the first edit
succeeds in memory and the second fails; the batch returns the `"error"`
response with no successful edits and the file restored. -/
theorem rollback_restores_pre_batch_content_witness :
    rollbackSampleOut.1.status = "error" ∧
    rollbackSampleOut.1.successful_edits = 0 ∧
    (∀ p, rollbackSampleOut.2.contentAt p = rollbackSampleFS.contentAt p) := by
  have hok : editBlocks rollbackSampleFS rollbackSampleEdits .rollback 1 =
      .ok (rollbackSampleOut.1, rollbackSampleOut.2) := rfl
  have hnocr : ∀ p d, rollbackSampleFS p = some d → '\r' ∉ d.content := by
    intro p d hpd
    unfold rollbackSampleFS at hpd
    by_cases hp : p = "rb.txt"
    · rw [if_pos hp] at hpd
      have hd := Option.some.inj hpd
      rw [← hd]
      decide
    · rw [if_neg hp] at hpd
      exact Option.noConfusion hpd
  have hmain := rollback_restores_pre_batch_content rollbackSampleFS
    rollbackSampleEdits 1 hnocr rollbackSampleOut.1 rollbackSampleOut.2 hok
  have hstatus : rollbackSampleOut.1.status = "error" := rfl
  exact ⟨hstatus, (hmain.2 hstatus).2, (hmain.2 hstatus).1⟩

/-! ## The DiffApplier (spec section 4.5; no diff applier ships in src/) -/

/-- Modelled from the spec: the DiffApplier failure modes of section 4.5. -/
inductive DiffErr where
  | noHunks
  | overlappingHunks
  | contextMismatch
  | deletionMismatch
  | invalidHunkMarker
  | hunkLengthMismatch
deriving DecidableEq, Repr

/-- Splits a text at every occurrence of `sep`, keeping empty segments. -/
def splitOnCharD (sep : Char) : Text → List Text
  | [] => [[]]
  | c :: rest =>
    if c = sep then [] :: splitOnCharD sep rest
    else
      match splitOnCharD sep rest with
      | [] => [[c]]
      | s :: ss => (c :: s) :: ss

def parseNatAux : Text → Nat → Option Nat
  | [], acc => some acc
  | c :: cs, acc =>
    if c.isDigit then parseNatAux cs (acc * 10 + (c.toNat - 48)) else none

def parseNatText (t : Text) : Option Nat :=
  if t = [] then none else parseNatAux t 0

/-- Modelled from the spec: one side of a hunk header, `marker` then
`start[,len]` with the length defaulting to 1. -/
def parseRange (marker : Char) : Text → Option (Nat × Nat)
  | [] => none
  | c :: rest =>
    if c = marker then
      match splitOnCharD ',' rest with
      | [a] => (parseNatText a).map (fun n => (n, 1))
      | [a, b] =>
        match parseNatText a, parseNatText b with
        | some n, some m => some (n, m)
        | _, _ => none
      | _ => none
    else none

/-- Modelled from the spec: a hunk header line
`@@ -old_start[,old_len] +new_start[,new_len] @@`, returned as
`(old_start, old_len, new_start, new_len)`. -/
def parseHunkHeader (line : Text) : Option (Nat × Nat × Nat × Nat) :=
  match splitOnCharD ' ' line with
  | [t1, t2, t3, t4] =>
    if t1 = "@@".toList ∧ t4 = "@@".toList then
      match parseRange '-' t2, parseRange '+' t3 with
      | some (os, ol), some (ns2, nl) => some (os, ol, ns2, nl)
      | _, _ => none
    else none
  | _ => none

/-- Groups the diff lines into hunks: each header line opens a hunk whose
body runs to the next header; lines before the first header are ignored.
The fuel is the line count, which bounds every `dropWhile` suffix. -/
def splitHunksF : Nat → List Text → List ((Nat × Nat × Nat × Nat) × List Text)
  | 0, _ => []
  | _, [] => []
  | fuel + 1, l :: rest =>
    match parseHunkHeader l with
    | some h =>
      (h, rest.takeWhile (fun l2 => (parseHunkHeader l2).isNone)) ::
        splitHunksF fuel (rest.dropWhile (fun l2 => (parseHunkHeader l2).isNone))
    | none => splitHunksF fuel rest

def splitHunks (ls : List Text) : List ((Nat × Nat × Nat × Nat) × List Text) :=
  splitHunksF ls.length ls

/-- Modelled from the spec: one hunk body walked line by line at the current
old-index, classifying each line by its leading marker — space (context:
must match, copied, index advances), `-` (deletion: must match, index
advances), `+` (insertion: emitted with a newline), `\` (no-op) — and
returning the emitted lines, the final old-index and the consumed
context+deletion and context+insertion counts. -/
def applyHunkBody (orig : List Text) :
    List Text → Nat → Except DiffErr (List Text × Nat × Nat × Nat)
  | [], oldIdx => .ok ([], oldIdx, 0, 0)
  | b :: rest, oldIdx =>
    match b with
    | [] => .error .invalidHunkMarker
    | m :: t =>
      if m = ' ' then
        match orig[oldIdx]? with
        | none => .error .contextMismatch
        | some ol =>
          if stripNl ol = t then
            match applyHunkBody orig rest (oldIdx + 1) with
            | .ok (out, oi, oc, nc) => .ok (ol :: out, oi, oc + 1, nc + 1)
            | .error e => .error e
          else .error .contextMismatch
      else if m = '-' then
        match orig[oldIdx]? with
        | none => .error .deletionMismatch
        | some ol =>
          if stripNl ol = t then
            match applyHunkBody orig rest (oldIdx + 1) with
            | .ok (out, oi, oc, nc) => .ok (out, oi, oc + 1, nc)
            | .error e => .error e
          else .error .deletionMismatch
      else if m = '+' then
        match applyHunkBody orig rest oldIdx with
        | .ok (out, oi, oc, nc) => .ok ((t ++ ['\n']) :: out, oi, oc, nc + 1)
        | .error e => .error e
      else if m = '\\' then applyHunkBody orig rest oldIdx
      else .error .invalidHunkMarker

/-- Modelled from the spec: the hunk loop — reject a hunk starting before
the already-consumed old-index, copy the untouched lines up to its start,
apply the body, then enforce the header's old/new length counts. -/
def applyHunks (orig : List Text) :
    List ((Nat × Nat × Nat × Nat) × List Text) → Nat →
      Except DiffErr (List Text × Nat)
  | [], consumed => .ok ([], consumed)
  | (h, body) :: rest, consumed =>
    if h.1 - 1 < consumed then .error .overlappingHunks
    else
      match applyHunkBody orig body (h.1 - 1) with
      | .error e => .error e
      | .ok (out, oi, oc, nc) =>
        if oc = h.2.1 ∧ nc = h.2.2.2 then
          match applyHunks orig rest oi with
          | .error e => .error e
          | .ok (outRest, fin) =>
            .ok ((orig.drop consumed).take (h.1 - 1 - consumed) ++ out ++ outRest,
              fin)
        else .error .hunkLengthMismatch

/-- Modelled from the spec: `apply(original_lines, diff_text)` of section
4.5 — at least one hunk header is required (`NoHunks` otherwise), hunks are
applied in header order, and the original lines past the last consumed index
are appended verbatim. -/
def applyDiff (origLines : List Text) (diffText : Text) :
    Except DiffErr (List Text) :=
  match splitHunks (splitNl diffText) with
  | [] => .error .noHunks
  | hk :: hks =>
    match applyHunks origLines (hk :: hks) 0 with
    | .error e => .error e
    | .ok (out, consumed) => .ok (out ++ origLines.drop consumed)

/-- **C6.** On the file with lines `"a\n" "b\n" "c\n"`, the diff with the
single hunk `@@ -2,1 +2,1 @@`, deletion `-b` and insertion `+B` yields the
lines `"a\n" "B\n" "c\n"`; and a diff text containing no hunk header fails
with `NoHunks`. -/
theorem apply_diff_scenario :
    applyDiff ["a\n".toList, "b\n".toList, "c\n".toList]
        "@@ -2,1 +2,1 @@\n-b\n+B".toList =
      .ok ["a\n".toList, "B\n".toList, "c\n".toList] ∧
    applyDiff ["a\n".toList, "b\n".toList, "c\n".toList]
        "no hunks here".toList = .error .noHunks :=
  ⟨rfl, rfl⟩
end CodeEditor
